import Mathlib

/-!
Verification of the tank-battle AI core: grid pathfinder (`src/utils/AStar.js`),
state machine (`src/utils/StateMachine.js`), squad blackboard
(`AIBlackboard` in `src/systems/CollisionSystem.js`) and the enemy AI
controller's state evaluation (`src/systems/EnemyAI.js`).

Shallow embedding conventions: JS numbers that are used as integers become
`Int`/`Nat`; world-space coordinates that may be fractional become `ℚ`;
JS `Map`s become insertion-ordered association lists; `Set`s become lists
without duplicates; Euclidean distance comparisons `dist < d` are embedded
as the exact equivalent `dist² < d²` over `ℚ`.
-/

namespace TankBattle

/-! ## Grid pathfinder (`src/utils/AStar.js`) -/

/-- A grid cell; the JS code passes `{x, y}` objects. -/
structure Cell where
  x : Int
  y : Int
deriving DecidableEq, Repr

/-- The terrain grid, `map[y][x]` holding tile codes:
0 empty, 1 brick, 2 steel, 3 water, 4 ice, 5 forest, 6 base. -/
abbrev GameMap := List (List Nat)

def mapWidth (m : GameMap) : Nat := (m.headD []).length

def mapHeight (m : GameMap) : Nat := m.length

/-- Embeds `AStar.isValidNode`: bounds check only
(`node.x >= 0 && node.x < map[0].length && node.y >= 0 && node.y < map.length`). -/
def isValidNode (c : Cell) (m : GameMap) : Bool :=
  0 ≤ c.x && c.x < (mapWidth m : Int) && 0 ≤ c.y && c.y < (mapHeight m : Int)

/-- Embeds `AStar.isWalkable`: valid and the tile is one of 0 (empty), 4 (ice),
5 (forest), 6 (base).  A missing entry of a ragged row (JS `undefined`)
is not walkable. -/
def isWalkable (c : Cell) (m : GameMap) : Bool :=
  if !isValidNode c m then false
  else
    match (m.getD c.y.toNat []).get? c.x.toNat with
    | some t => t == 0 || t == 4 || t == 5 || t == 6
    | none => false

/-- Embeds `AStar.heuristic`: Manhattan distance. -/
def heuristic (a b : Cell) : Nat :=
  (a.x - b.x).natAbs + (a.y - b.y).natAbs

/-- Embeds `AStar.getNeighbors`: the four axis neighbours, in the source order
up, down, left, right, filtered by walkability. -/
def getNeighbors (c : Cell) (m : GameMap) : List Cell :=
  [⟨c.x, c.y - 1⟩, ⟨c.x, c.y + 1⟩, ⟨c.x - 1, c.y⟩, ⟨c.x + 1, c.y⟩].filter
    (fun nb => isWalkable nb m)

/-- A node of the open list.  The JS node stores a `parent` pointer; since the
parents always form a chain back to the start node, the node here carries
that chain (start cell first, this node's cell last) explicitly. -/
structure ANode where
  cell : Cell
  g : Nat
  h : Nat
  f : Nat
  chain : List Cell
deriving Repr

/-- Scan for the index of the first node with strictly minimal `f`
(the JS `for` loop over `openList` with `<`). -/
def minFIdxAux : List ANode → Nat → Nat → Nat → Nat
  | [], _, best, _ => best
  | n :: rest, i, best, bestF =>
      if n.f < bestF then minFIdxAux rest (i + 1) i n.f
      else minFIdxAux rest (i + 1) best bestF

def minFIdx : List ANode → Nat
  | [] => 0
  | n :: rest => minFIdxAux rest 1 0 n.f

/-- Replace the first element satisfying `p` (JS mutates the node object
returned by `openList.find`). -/
def updateFirst (p : ANode → Bool) (upd : ANode → ANode) : List ANode → List ANode
  | [] => []
  | n :: rest => if p n then upd n :: rest else n :: updateFirst p upd rest

/-- The body of the JS `for (const neighbor of neighbors)` loop: skip closed
neighbours, push new nodes at the end of the open list, or relax an existing
open node when a strictly better `g` is found. -/
def relaxNeighbor (goal : Cell) (current : ANode) (closed : List Cell)
    (openL : List ANode) (nb : Cell) : List ANode :=
  if nb ∈ closed then openL
  else
    let gScore := current.g + 1
    match openL.find? (fun n => n.cell == nb) with
    | none =>
        let h := heuristic nb goal
        openL ++ [⟨nb, gScore, h, gScore + h, current.chain ++ [nb]⟩]
    | some existing =>
        if gScore < existing.g then
          updateFirst (fun n => n.cell == nb)
            (fun n => ⟨n.cell, gScore, n.h, gScore + n.h, current.chain ++ [nb]⟩)
            openL
        else openL

/-- The A* main loop.  The JS `while (openList.length > 0)` always terminates
because every iteration moves one in-bounds cell into the closed list; the
fuel passed by `findPath` (grid area + 1) is enough for that (see
`astarLoop_complete`), so the fuel-out branch is never the reason for `none`
on inputs where the JS loop would succeed. -/
def astarLoop (m : GameMap) (goal : Cell) :
    Nat → List ANode → List Cell → Option (List Cell)
  | 0, _, _ => none
  | _ + 1, [], _ => none
  | fuel + 1, a :: rest, closed =>
      let openL := a :: rest
      let i := minFIdx openL
      let current := openL.getD i a
      if current.cell = goal then some current.chain
      else
        let closed' := current.cell :: closed
        astarLoop m goal fuel
          ((getNeighbors current.cell m).foldl (relaxNeighbor goal current closed')
            (openL.eraseIdx i))
          closed'

/-- A world-space waypoint as produced by `reconstructPath`. -/
structure Waypoint where
  x : Int
  y : Int
  gridX : Int
  gridY : Int
deriving DecidableEq, Repr

structure WorldPos where
  x : Int
  y : Int
deriving DecidableEq, Repr

/-- Embeds `AStar.reconstructPath`: walk the parent chain (already explicit here),
convert to tile centres, and drop the start node. -/
def reconstructPath (chain : List Cell) (tileSize : Int) : List Waypoint :=
  (chain.map (fun c =>
    (⟨c.x * tileSize + tileSize / 2, c.y * tileSize + tileSize / 2, c.x, c.y⟩ : Waypoint))).drop 1

def cellOf (p : WorldPos) (tileSize : Int) : Cell :=
  ⟨Int.fdiv p.x tileSize, Int.fdiv p.y tileSize⟩

/-- Embeds `AStar.findPath`. -/
def findPath (start goal : WorldPos) (m : GameMap) (tileSize : Int) :
    Option (List Waypoint) :=
  let startCell := cellOf start tileSize
  let goalCell := cellOf goal tileSize
  if !isValidNode startCell m || !isValidNode goalCell m then none
  else
    let h0 := heuristic startCell goalCell
    match astarLoop m goalCell (mapWidth m * mapHeight m + 1)
        [⟨startCell, 0, h0, h0, [startCell]⟩] [] with
    | none => none
    | some chain => some (reconstructPath chain tileSize)

/-! ## Path simplification (`AStar.simplifyPath`) -/

/-- The loop of `simplifyPath`: at each consecutive pair the travel direction
`(sign dx, sign dy)` is compared against the direction at which a point was
last pushed (`null` initially), pushing `prev` exactly when they differ. -/
def simplifyLoop : Waypoint → List Waypoint → Option (Int × Int) → List Waypoint
  | _, [], _ => []
  | prev, curr :: rest, lastDir =>
      let d : Int × Int := (Int.sign (curr.x - prev.x), Int.sign (curr.y - prev.y))
      if some d ≠ lastDir then prev :: simplifyLoop curr rest (some d)
      else simplifyLoop curr rest lastDir

/-- Embeds `AStar.simplifyPath`. -/
def simplifyPath (path : List Waypoint) : List Waypoint :=
  if path.length ≤ 2 then path
  else
    match path with
    | [] => path
    | p0 :: rest =>
        (p0 :: simplifyLoop p0 rest none) ++ [(p0 :: rest).getLast (List.cons_ne_nil p0 rest)]

/-! ## State machine engine (`src/utils/StateMachine.js`) -/

/-- What a registered state provides; the JS state object optionally holds
`enter`, `update`, `exit` handlers.  Only the presence of the handlers is
relevant to the engine's control flow, so they are embedded as flags, and
the calls the engine performs are recorded as an event trace. -/
structure SMStateDef where
  hasEnter : Bool
  hasUpdate : Bool
  hasExit : Bool
deriving DecidableEq, Repr

structure SMachine where
  states : List (String × SMStateDef)
  currentState : Option String
  previousState : Option String
deriving DecidableEq, Repr

inductive SMEvent where
  | exitEv (name : String)
  | enterEv (name : String)
deriving DecidableEq, Repr

def lookupState (sm : SMachine) (n : String) : Option SMStateDef :=
  (sm.states.find? (fun p => p.1 == n)).map (fun p => p.2)

/-- Embeds `StateMachine.setState`: returns `(success, machine afterwards, handler
calls performed in order)`. -/
def setState (sm : SMachine) (name : String) : Bool × SMachine × List SMEvent :=
  match lookupState sm name with
  | none => (false, sm, [])
  | some sd =>
      if sm.currentState = some name then (false, sm, [])
      else
        let exitEvents : List SMEvent :=
          match sm.currentState with
          | some cur =>
              match lookupState sm cur with
              | some cd => if cd.hasExit then [SMEvent.exitEv cur] else []
              | none => []
          | none => []
        let enterEvents : List SMEvent :=
          if sd.hasEnter then [SMEvent.enterEv name] else []
        (true, ⟨sm.states, some name, sm.currentState⟩, exitEvents ++ enterEvents)

/-! ## Squad blackboard (`AIBlackboard` in `src/systems/CollisionSystem.js`) -/

/-- Insertion-ordered association list standing for a JS `Map`. -/
def mget? {V : Type} (m : List (String × V)) (k : String) : Option V :=
  (m.find? (fun p => p.1 == k)).map (fun p => p.2)

/-- JS `Map.set`: replace in place if the key exists, else append. -/
def mset {V : Type} (m : List (String × V)) (k : String) (v : V) :
    List (String × V) :=
  if (m.find? (fun p => p.1 == k)).isSome then
    m.map (fun p => if p.1 == k then (k, v) else p)
  else m ++ [(k, v)]

/-- JS `Map.delete`. -/
def mdelete {V : Type} (m : List (String × V)) (k : String) :
    List (String × V) :=
  m.filter (fun p => !(p.1 == k))

inductive TargetKind where
  | player
  | base
deriving DecidableEq, Repr

inductive Dir where
  | up
  | down
  | left
  | right
deriving DecidableEq, Repr

structure Pos where
  x : ℚ
  y : ℚ
deriving DecidableEq, Repr

/-- A flanking candidate `{x, y, side}`. -/
structure FlankCandidate where
  x : ℚ
  y : ℚ
  side : String
deriving DecidableEq, Repr

/-- The blackboard fields the verified operations read or write.
`enemyPositions` values carry the `{x, y, time}` record stored by
`updateEnemyPosition`. -/
structure BBState where
  playerLastKnownPosition : Option Pos
  playerDirection : Dir
  assignedTargets : List (String × TargetKind)
  flankingPositions : List (String × FlankCandidate)
  assignedPatrolPoints : List (String × Nat)
  enemyPositions : List (String × (Pos × ℚ))
  attackingEnemies : List String
  threatLevel : Int
deriving Repr

/-- The `config` object of the blackboard constructor. -/
def flankingDistance : ℚ := 120
def minDistanceBetweenEnemies : ℚ := 60
def maxFlankingEnemies : Nat := 2

def initialBB : BBState :=
  ⟨none, Dir.down, [], [], [], [], [], 0⟩

/-- Embeds `AIBlackboard.assignTarget`: count assignments, override the preference
to the base when ≥ 2 agents target the player and none targets the base. -/
def assignTarget (st : BBState) (enemyId : String) (preferred : TargetKind) :
    TargetKind × BBState :=
  let playerTargetCount := st.assignedTargets.countP (fun p => p.2 == TargetKind.player)
  let baseTargetCount := st.assignedTargets.countP (fun p => p.2 == TargetKind.base)
  let assigned :=
    if playerTargetCount ≥ 2 ∧ baseTargetCount = 0 then TargetKind.base else preferred
  (assigned, { st with assignedTargets := mset st.assignedTargets enemyId assigned })

/-- Embeds `AIBlackboard.removeTargetAssignment`: one call purges all five
agent-keyed collections. -/
def removeTargetAssignment (st : BBState) (enemyId : String) : BBState :=
  { st with
    assignedTargets := mdelete st.assignedTargets enemyId
    flankingPositions := mdelete st.flankingPositions enemyId
    assignedPatrolPoints := mdelete st.assignedPatrolPoints enemyId
    enemyPositions := mdelete st.enemyPositions enemyId
    attackingEnemies := st.attackingEnemies.filter (fun x => !(x == enemyId)) }

/-- Embeds `AIBlackboard.canJoinFlanking`. -/
def canJoinFlanking (st : BBState) : Bool :=
  st.flankingPositions.length < maxFlankingEnemies

/-- Embeds `AIBlackboard.markAsAttacking` (JS `Set.add`). -/
def markAsAttacking (st : BBState) (enemyId : String) : BBState :=
  { st with attackingEnemies :=
      if enemyId ∈ st.attackingEnemies then st.attackingEnemies
      else st.attackingEnemies ++ [enemyId] }

def markAsNotAttacking (st : BBState) (enemyId : String) : BBState :=
  { st with attackingEnemies := st.attackingEnemies.filter (fun x => !(x == enemyId)) }

def updateEnemyPosition (st : BBState) (enemyId : String) (p : Pos) (time : ℚ) : BBState :=
  { st with enemyPositions := mset st.enemyPositions enemyId (p, time) }

/-- Embeds `AIBlackboard.clear`. -/
def clearBB (_st : BBState) : BBState := initialBB

/-- The scene data `calculateFlankingPosition` consults: the level map (may
be absent) and the game width/height. -/
structure SceneEnv where
  levelMap : Option GameMap
  width : ℚ
  height : ℚ

/-- Embeds `AIBlackboard._isPositionWalkable`: `true` without map data; otherwise
the tile under the position must not be brick (1), steel (2) or water (3).
A missing entry of a ragged row (JS `undefined`) counts as walkable because
`[BRICK, STEEL, WATER].includes(undefined)` is `false`. -/
def bbPositionWalkable (env : SceneEnv) (px py : ℚ) : Bool :=
  match env.levelMap with
  | none => true
  | some m =>
      let gridX : Int := Int.floor (px / 32)
      let gridY : Int := Int.floor (py / 32)
      if gridY < 0 || gridY ≥ (m.length : Int) || gridX < 0 ||
          gridX ≥ ((m.headD []).length : Int) then false
      else
        match (m.getD gridY.toNat []).get? gridX.toNat with
        | some t => !(t == 1 || t == 2 || t == 3)
        | none => true

/-- Embeds `AIBlackboard._isPositionValid`: a 32-pixel margin bounds check, then
walkability. -/
def bbPositionValid (env : SceneEnv) (px py : ℚ) : Bool :=
  if px ≤ 32 || px ≥ env.width - 32 || py ≤ 32 || py ≥ env.height - 32 then false
  else bbPositionWalkable env px py

/-- Embeds `AIBlackboard._isPositionSafelyWalkable`: centre plus the four corners of
a half-tile footprint. -/
def bbPositionSafelyWalkable (env : SceneEnv) (px py : ℚ) : Bool :=
  bbPositionWalkable env px py &&
  bbPositionWalkable env (px - 16) (py - 16) &&
  bbPositionWalkable env (px + 16) (py - 16) &&
  bbPositionWalkable env (px - 16) (py + 16) &&
  bbPositionWalkable env (px + 16) (py + 16)

/-- Euclidean `Phaser.Math.Distance.Between a b < d`, embedded exactly as the
equivalent squared comparison. -/
def distLt (ax ay bx by' d : ℚ) : Bool :=
  (ax - bx) ^ 2 + (ay - by') ^ 2 < d ^ 2

/-- Embeds `AIBlackboard._isPositionOccupied`: within `minDistanceBetweenEnemies`
of another agent's reserved flanking slot. -/
def isPositionOccupied (st : BBState) (px py : ℚ) (excludeEnemyId : String) : Bool :=
  st.flankingPositions.any (fun p =>
    !(p.1 == excludeEnemyId) && distLt px py p.2.x p.2.y minDistanceBetweenEnemies)

/-- The facing-dependent priority table of `_prioritizeFlankingPositions`. -/
def flankPriority (d : Dir) : List String :=
  match d with
  | Dir.up => ["bottom", "left", "right", "top"]
  | Dir.down => ["top", "left", "right", "bottom"]
  | Dir.left => ["right", "top", "bottom", "left"]
  | Dir.right => ["left", "top", "bottom", "right"]

def priorityIndex (pr : List String) (side : String) : Nat := pr.indexOf side

/-- Embeds `_prioritizeFlankingPositions`: sort by the index of the candidate's side
in the priority list (the sides of the four candidates are pairwise distinct,
so any comparison sort produces this unique order). -/
def prioritizeFlankingPositions (cands : List FlankCandidate) (d : Dir) :
    List FlankCandidate :=
  let pr := flankPriority d
  cands.mergeSort (fun a b => priorityIndex pr a.side ≤ priorityIndex pr b.side)

/-- One radius step of `_findNearbyWalkablePosition`'s spiral search. -/
def nearbyCandidates (px py r : ℚ) : List (ℚ × ℚ) :=
  [(px + r, py), (px - r, py), (px, py + r), (px, py - r),
   (px + r, py + r), (px - r, py + r), (px + r, py - r), (px - r, py - r)]

def findNearbyAtRadius (env : SceneEnv) (cands : List (ℚ × ℚ)) : Option (ℚ × ℚ) :=
  cands.find? (fun c => bbPositionValid env c.1 c.2 && bbPositionSafelyWalkable env c.1 c.2)

/-- Embeds `AIBlackboard._findNearbyWalkablePosition` with the default search radius
80 and step 16: radii 16, 32, 48, 64, 80. -/
def findNearbyWalkablePosition (env : SceneEnv) (pos : FlankCandidate) :
    Option FlankCandidate :=
  let radii : List ℚ := [16, 32, 48, 64, 80]
  (radii.foldl (fun acc r =>
      match acc with
      | some c => some c
      | none => findNearbyAtRadius env (nearbyCandidates pos.x pos.y r)) none).map
    (fun c => ⟨c.1, c.2, pos.side⟩)

def firstFreeCandidate (env : SceneEnv) (st : BBState) (enemyId : String) :
    List FlankCandidate → Option FlankCandidate
  | [] => none
  | c :: rest =>
      if !isPositionOccupied st c.x c.y enemyId then
        if bbPositionValid env c.x c.y && bbPositionSafelyWalkable env c.x c.y then some c
        else firstFreeCandidate env st enemyId rest
      else firstFreeCandidate env st enemyId rest

def fallbackCandidate (env : SceneEnv) (st : BBState) (enemyId : String) :
    List FlankCandidate → Option FlankCandidate
  | [] => none
  | c :: rest =>
      match findNearbyWalkablePosition env c with
      | some nearbyPos =>
          if !isPositionOccupied st nearbyPos.x nearbyPos.y enemyId then some nearbyPos
          else fallbackCandidate env st enemyId rest
      | none => fallbackCandidate env st enemyId rest

/-- The four candidates at `flankingDistance` along the player's cardinal
axes, in source order left, right, top, bottom. -/
def flankCandidatesOf (playerPos : Pos) : List FlankCandidate :=
  [⟨playerPos.x - flankingDistance, playerPos.y, "left"⟩,
   ⟨playerPos.x + flankingDistance, playerPos.y, "right"⟩,
   ⟨playerPos.x, playerPos.y - flankingDistance, "top"⟩,
   ⟨playerPos.x, playerPos.y + flankingDistance, "bottom"⟩]

/-- Embeds `AIBlackboard.calculateFlankingPosition`.  The `enemyPos` argument is
unused by the source body as well; the prioritized list (a pure value the
source computes once) is written out at both uses. -/
def calculateFlankingPosition (env : SceneEnv) (st : BBState) (enemyId : String)
    (_enemyPos : Pos) : Option FlankCandidate × BBState :=
  match st.playerLastKnownPosition with
  | none => (none, st)
  | some playerPos =>
      match firstFreeCandidate env st enemyId
          (prioritizeFlankingPositions (flankCandidatesOf playerPos)
            st.playerDirection) with
      | some pos =>
          (some pos, { st with flankingPositions := mset st.flankingPositions enemyId pos })
      | none =>
          match fallbackCandidate env st enemyId
              (prioritizeFlankingPositions (flankCandidatesOf playerPos)
                st.playerDirection) with
          | some nearbyPos =>
              (some nearbyPos,
               { st with flankingPositions := mset st.flankingPositions enemyId nearbyPos })
          | none => (none, st)

/-- The player fields read by `calculateThreatLevel`. -/
structure PlayerModel where
  isDestroyed : Bool
  starLevel : Int
  lives : Int
deriving DecidableEq, Repr

/-- Embeds `AIBlackboard.calculateThreatLevel`.  The JS truthiness guards
`if (player.starLevel)` and `if (player.lives)` skip the additions exactly
when the field is 0. -/
def calculateThreatLevel (st : BBState) (player : Option PlayerModel) : BBState :=
  match player with
  | none => { st with threatLevel := 0 }
  | some p =>
      if p.isDestroyed then { st with threatLevel := 0 }
      else
        let threat : Int := 50
        let threat := if p.starLevel ≠ 0 then threat + p.starLevel * 10 else threat
        let threat := if p.lives ≠ 0 then threat + p.lives * 5 else threat
        let threat := if st.enemyPositions.length < 2 then threat + 20 else threat
        { st with threatLevel := min 100 (max 0 threat) }

/-- One blackboard operation per public mutator, as performed by the agents.
Parameters the operation reads from the scene or from randomness are
universally quantified, so every behaviour of the source is covered.  Per the
claim's call discipline, `calcFlanking` carries the guard that
`canJoinFlanking()` returned `true` right before the call. -/
inductive BBStep : BBState → BBState → Prop where
  | updatePlayer (s : BBState) (p : Pos) (d : Dir) :
      BBStep s { s with playerLastKnownPosition := some p, playerDirection := d }
  | assignTargetStep (s : BBState) (id : String) (pref : TargetKind) :
      BBStep s (assignTarget s id pref).2
  | removeAgent (s : BBState) (id : String) :
      BBStep s (removeTargetAssignment s id)
  | markAttacking (s : BBState) (id : String) :
      BBStep s (markAsAttacking s id)
  | markNotAttacking (s : BBState) (id : String) :
      BBStep s (markAsNotAttacking s id)
  | updateEnemyPos (s : BBState) (id : String) (p : Pos) (t : ℚ) :
      BBStep s (updateEnemyPosition s id p t)
  | assignPatrol (s : BBState) (id : String) (idx : Nat) :
      BBStep s { s with assignedPatrolPoints := mset s.assignedPatrolPoints id idx }
  | nextPatrol (s : BBState) (id : String) (idx : Nat) :
      BBStep s { s with assignedPatrolPoints := mset s.assignedPatrolPoints id idx }
  | threat (s : BBState) (player : Option PlayerModel) :
      BBStep s (calculateThreatLevel s player)
  | calcFlanking (s : BBState) (env : SceneEnv) (id : String) (p : Pos)
      (h : canJoinFlanking s = true) :
      BBStep s (calculateFlankingPosition env s id p).2
  | clearStep (s : BBState) :
      BBStep s (clearBB s)

def BBReachable (s : BBState) : Prop :=
  Relation.ReflTransGen BBStep initialBB s

/-! ## Enemy AI state evaluation (`EnemyAI._evaluateState`) -/

inductive AIState where
  | patrol
  | chase
  | attack
  | retreat
deriving DecidableEq, Repr

/-- The state chosen by `_evaluateState` once the target has been selected:
`currentTarget` is the selected target (`null` → patrol), `targetAlive` is
the `!target || target.isDestroyed` guard, and the thresholds are the
`AI_CONFIG` parameters of the controller. -/
def evaluateStateDecision (currentTarget : Option TargetKind) (targetAlive : Bool)
    (health maxHealth distance retreatHealthPercent attackRange detectionRange : ℚ) :
    AIState :=
  match currentTarget with
  | none => AIState.patrol
  | some t =>
      if !targetAlive then AIState.patrol
      else
        let healthPercent := health / maxHealth
        if healthPercent < retreatHealthPercent ∧ t = TargetKind.player then
          AIState.retreat
        else if distance < attackRange then AIState.attack
        else if distance < detectionRange ∨ t = TargetKind.base then AIState.chase
        else AIState.patrol

/-- Modelled from the spec: the decision table of §4.4, read top to bottom. -/
def specDecisionTable (t : TargetKind)
    (health maxHealth distance retreatThreshold attackRange detectionRange : ℚ) :
    AIState :=
  if health / maxHealth < retreatThreshold ∧ t = TargetKind.player then AIState.retreat
  else if distance < attackRange then AIState.attack
  else if distance < detectionRange ∨ t = TargetKind.base then AIState.chase
  else AIState.patrol

/-! ## Map lemmas -/

theorem find?_mdelete_self {V : Type} (m : List (String × V)) (k : String) :
    (mdelete m k).find? (fun p => p.1 == k) = none := by
  unfold mdelete
  rw [List.find?_eq_none]
  intro p hp
  have := (List.mem_filter.mp hp).2
  simpa using this

theorem mget?_mdelete_self {V : Type} (m : List (String × V)) (k : String) :
    mget? (mdelete m k) k = none := by
  unfold mget?
  rw [find?_mdelete_self]
  rfl

theorem mget?_mdelete_ne {V : Type} (m : List (String × V)) (k j : String)
    (hne : j ≠ k) : mget? (mdelete m k) j = mget? m j := by
  unfold mget? mdelete
  induction m with
  | nil => rfl
  | cons p rest ih =>
      rw [List.filter_cons]
      by_cases h : p.1 = k
      · have hj : ¬(p.1 = j) := fun hc => hne (hc ▸ h)
        rw [if_neg (by simp [h])]
        conv_rhs => rw [List.find?_cons_of_neg _ (by simp [hj])]
        exact ih
      · rw [if_pos (by simp [h])]
        by_cases hj : p.1 = j
        · rw [List.find?_cons_of_pos _ (by simp [hj]),
            List.find?_cons_of_pos _ (by simp [hj])]
        · rw [List.find?_cons_of_neg _ (by simp [hj]),
            List.find?_cons_of_neg _ (by simp [hj])]
          exact ih

theorem mget?_mset_self {V : Type} (m : List (String × V)) (k : String) (v : V) :
    mget? (mset m k v) k = some v := by
  unfold mget? mset
  by_cases h : (m.find? (fun p => p.1 == k)).isSome
  · rw [if_pos h]
    induction m with
    | nil => simp at h
    | cons p rest ih =>
        by_cases hp : p.1 = k
        · rw [List.map_cons, if_pos (by simpa using hp)]
          rw [List.find?_cons_of_pos _ (by simp)]
          rfl
        · rw [List.map_cons, if_neg (by simpa using hp)]
          rw [List.find?_cons_of_neg _ (by simpa using hp)]
          rw [List.find?_cons_of_neg _ (by simpa using hp)] at h
          exact ih h
  · rw [if_neg h]
    rw [List.find?_append]
    have hnone : m.find? (fun p => p.1 == k) = none := by
      cases hf : m.find? (fun p => p.1 == k) with
      | none => rfl
      | some a => rw [hf] at h; simp at h
    rw [hnone]
    simp [List.find?]

/-! ## C1: the state-evaluation priority table -/

/-- C1.  At every state re-evaluation with a live target, `_evaluateState`
picks the new state exactly by the spec's priority table evaluated top to
bottom: retreat when the health fraction is below the retreat threshold and
the target is the player, else attack when the distance is below the attack
range, else chase when the distance is below the detection range or the
target is the base, else patrol. -/
theorem evaluateState_matches_spec_table (t : TargetKind)
    (health maxHealth distance rt ar dr : ℚ) :
    evaluateStateDecision (some t) true health maxHealth distance rt ar dr =
      specDecisionTable t health maxHealth distance rt ar dr := by
  simp [evaluateStateDecision, specDecisionTable]

/-! ## C9: the threat score is clamped to [0, 100] -/

/-- C9.  After every recomputation of the threat score — base 50, plus 10 per
star level, plus 5 per remaining life, plus 20 when fewer than 2 agents are
active — the stored threat level lies within [0, 100], for arbitrary
(including negative) star levels, lives, and agent counts. -/
theorem threatLevel_in_range (st : BBState) (player : Option PlayerModel) :
    0 ≤ (calculateThreatLevel st player).threatLevel ∧
      (calculateThreatLevel st player).threatLevel ≤ 100 := by
  unfold calculateThreatLevel
  match player with
  | none => simp
  | some p =>
      by_cases hd : p.isDestroyed
      · simp [hd]
      · simp only [hd, if_false, Bool.false_eq_true]
        constructor
        · exact le_min (by norm_num) (le_max_left 0 _)
        · exact min_le_left 100 _

/-! ## C3: target balancing -/

/-- C3.  `assignTarget(agentId, preferred)` returns and records `base`
whenever at least two agents are currently assigned the player and none is
assigned the base, regardless of the requested preference; in every other
situation it returns and records the requested preference. -/
theorem assignTarget_balances (st : BBState) (enemyId : String)
    (preferred : TargetKind) :
    (st.assignedTargets.countP (fun p => p.2 == TargetKind.player) ≥ 2 ∧
        st.assignedTargets.countP (fun p => p.2 == TargetKind.base) = 0 →
      (assignTarget st enemyId preferred).1 = TargetKind.base ∧
      mget? (assignTarget st enemyId preferred).2.assignedTargets enemyId =
        some TargetKind.base) ∧
    (¬(st.assignedTargets.countP (fun p => p.2 == TargetKind.player) ≥ 2 ∧
        st.assignedTargets.countP (fun p => p.2 == TargetKind.base) = 0) →
      (assignTarget st enemyId preferred).1 = preferred ∧
      mget? (assignTarget st enemyId preferred).2.assignedTargets enemyId =
        some preferred) := by
  constructor
  · intro h
    simp only [assignTarget]
    rw [if_pos h]
    exact ⟨rfl, mget?_mset_self _ _ _⟩
  · intro h
    simp only [assignTarget]
    rw [if_neg h]
    exact ⟨rfl, mget?_mset_self _ _ _⟩

/-- Witness for C3 at a concrete blackboard with two player-assigned agents
and none on the base. -/
theorem assignTarget_balances_witness :
    (assignTarget
        { initialBB with assignedTargets :=
            [("e1", TargetKind.player), ("e2", TargetKind.player)] }
        "e3" TargetKind.player).1 = TargetKind.base := by
  exact (assignTarget_balances
    { initialBB with assignedTargets :=
        [("e1", TargetKind.player), ("e2", TargetKind.player)] }
    "e3" TargetKind.player).1 (by decide) |>.1

/-! ## C5: removing an agent purges every collection -/

/-- C5.  One call to `removeTargetAssignment` removes the agent's target
assignment, flanking slot, patrol index, last position and attacking flag,
and leaves every other agent's entries unchanged. -/
theorem removeTargetAssignment_purges (st : BBState) (id : String) :
    (mget? (removeTargetAssignment st id).assignedTargets id = none ∧
     mget? (removeTargetAssignment st id).flankingPositions id = none ∧
     mget? (removeTargetAssignment st id).assignedPatrolPoints id = none ∧
     mget? (removeTargetAssignment st id).enemyPositions id = none ∧
     id ∉ (removeTargetAssignment st id).attackingEnemies) ∧
    (∀ j, j ≠ id →
      mget? (removeTargetAssignment st id).assignedTargets j =
        mget? st.assignedTargets j ∧
      mget? (removeTargetAssignment st id).flankingPositions j =
        mget? st.flankingPositions j ∧
      mget? (removeTargetAssignment st id).assignedPatrolPoints j =
        mget? st.assignedPatrolPoints j ∧
      mget? (removeTargetAssignment st id).enemyPositions j =
        mget? st.enemyPositions j ∧
      (j ∈ (removeTargetAssignment st id).attackingEnemies ↔
        j ∈ st.attackingEnemies)) := by
  unfold removeTargetAssignment
  refine ⟨⟨mget?_mdelete_self _ _, mget?_mdelete_self _ _, mget?_mdelete_self _ _,
      mget?_mdelete_self _ _, ?_⟩, ?_⟩
  · simp [List.mem_filter]
  · intro j hj
    refine ⟨mget?_mdelete_ne _ _ _ hj, mget?_mdelete_ne _ _ _ hj,
      mget?_mdelete_ne _ _ _ hj, mget?_mdelete_ne _ _ _ hj, ?_⟩
    simp [List.mem_filter, hj]

/-- Witness for C5 on a concrete two-agent blackboard. -/
theorem removeTargetAssignment_purges_witness :
    mget? (removeTargetAssignment
        { initialBB with
            assignedTargets := [("a", TargetKind.player), ("b", TargetKind.base)],
            attackingEnemies := ["a", "b"] } "a").assignedTargets "b" =
      some TargetKind.base := by
  have h := (removeTargetAssignment_purges
    { initialBB with
        assignedTargets := [("a", TargetKind.player), ("b", TargetKind.base)],
        attackingEnemies := ["a", "b"] } "a").2 "b" (by decide)
  rw [h.1]
  rfl

/-! ## C6: state machine transition discipline -/

theorem setState_of_current (sm : SMachine) (name : String)
    (hl : (lookupState sm name).isSome) (hc : sm.currentState = some name) :
    setState sm name = (false, sm, []) := by
  obtain ⟨sd, h⟩ : ∃ sd, lookupState sm name = some sd := by
    cases hf : lookupState sm name with
    | none => rw [hf] at hl; simp at hl
    | some sd => exact ⟨sd, rfl⟩
  simp only [setState, h, if_pos hc]

theorem setState_of_switch (sm : SMachine) (name : String) (sd : SMStateDef)
    (hl : lookupState sm name = some sd) (hc : ¬sm.currentState = some name) :
    setState sm name =
      (true, ⟨sm.states, some name, sm.currentState⟩,
        (match sm.currentState with
         | some cur =>
             match lookupState sm cur with
             | some cd => if cd.hasExit then [SMEvent.exitEv cur] else []
             | none => []
         | none => []) ++
        (if sd.hasEnter then [SMEvent.enterEv name] else [])) := by
  simp only [setState, hl, if_neg hc]

/-- C6.  For a registered state `name`: after a successful `setState name`,
calling `setState name` again returns `false`, performs no handler call, and
leaves the machine (current and previous state) unchanged; and every
successful switch from a different state emits the outgoing state's exit
call before the incoming state's enter call. -/
theorem setState_second_call_noop_and_exit_before_enter (sm : SMachine)
    (name : String) :
    ((setState sm name).1 = true →
      setState (setState sm name).2.1 name = (false, (setState sm name).2.1, [])) ∧
    (∀ c sd cd, sm.currentState = some c → lookupState sm name = some sd →
      lookupState sm c = some cd → c ≠ name →
      (setState sm name).1 = true ∧
      (setState sm name).2.1.currentState = some name ∧
      (setState sm name).2.1.previousState = some c ∧
      (setState sm name).2.2 =
        (if cd.hasExit then [SMEvent.exitEv c] else []) ++
        (if sd.hasEnter then [SMEvent.enterEv name] else [])) := by
  constructor
  · intro hs
    cases hl : lookupState sm name with
    | none =>
        exfalso
        unfold setState at hs
        rw [hl] at hs
        simp at hs
    | some sd =>
        by_cases hc : sm.currentState = some name
        · exfalso
          rw [setState_of_current sm name (by rw [hl]; rfl) hc] at hs
          simp at hs
        · rw [setState_of_switch sm name sd hl hc]
          have hl2 : lookupState ⟨sm.states, some name, sm.currentState⟩ name = some sd := hl
          exact setState_of_current _ name (by rw [hl2]; rfl) rfl
  · intro c sd cd hcur hl hlc hne
    have hc : ¬sm.currentState = some name := by
      rw [hcur]
      simp [hne]
    rw [setState_of_switch sm name sd hl hc]
    refine ⟨rfl, rfl, by rw [hcur], ?_⟩
    simp only [hcur, hlc]

/-- Witness for C6 on a concrete two-state machine: switching from `"a"` to
`"b"` emits exit "a" then enter "b", and repeating `setState "b"` is a
no-op returning `false`. -/
theorem setState_witness :
    ((setState
        (⟨[("a", ⟨true, true, true⟩), ("b", ⟨true, true, true⟩)], some "a", none⟩ : SMachine)
        "b").2.2 =
      [SMEvent.exitEv "a", SMEvent.enterEv "b"]) ∧
    setState (setState
        (⟨[("a", ⟨true, true, true⟩), ("b", ⟨true, true, true⟩)], some "a", none⟩ : SMachine)
        "b").2.1 "b" =
      (false, (setState
        (⟨[("a", ⟨true, true, true⟩), ("b", ⟨true, true, true⟩)], some "a", none⟩ : SMachine)
        "b").2.1, []) := by
  have h := setState_second_call_noop_and_exit_before_enter
    (⟨[("a", ⟨true, true, true⟩), ("b", ⟨true, true, true⟩)], some "a", none⟩ : SMachine) "b"
  refine ⟨?_, ?_⟩
  · have h2 := h.2 "a" ⟨true, true, true⟩ ⟨true, true, true⟩ rfl (by rfl) (by rfl) (by decide)
    rw [h2.2.2.2]
    rfl
  · exact h.1 (by rfl)

/-! ## C8: simplifyPath characterization -/

/-- The direction of travel between two consecutive waypoints. -/
def dirOf (a b : Waypoint) : Int × Int :=
  (Int.sign (b.x - a.x), Int.sign (b.y - a.y))

/-- Modelled from the spec's words: the interior waypoints at which the
direction of travel changes. -/
def turnPoints : List Waypoint → List Waypoint
  | a :: b :: c :: rest =>
      if dirOf a b ≠ dirOf b c then b :: turnPoints (b :: c :: rest)
      else turnPoints (b :: c :: rest)
  | _ => []

theorem simplifyLoop_eq_turnPoints (xs : List Waypoint) :
    ∀ a b : Waypoint, simplifyLoop b xs (some (dirOf a b)) = turnPoints (a :: b :: xs) := by
  induction xs with
  | nil => intro a b; rfl
  | cons c r ih =>
      intro a b
      show (if some (dirOf b c) ≠ some (dirOf a b) then
          b :: simplifyLoop c r (some (dirOf b c))
        else simplifyLoop c r (some (dirOf a b))) =
        (if dirOf a b ≠ dirOf b c then b :: turnPoints (b :: c :: r)
         else turnPoints (b :: c :: r))
      by_cases h : dirOf b c = dirOf a b
      · rw [if_neg (by simp [h]), if_neg (by simp [h.symm]), ← h]
        exact ih b c
      · rw [if_pos (by simp [h]), if_pos (Ne.symm h)]
        rw [ih b c]

/-- C8 (amended).  `simplifyPath` returns paths of at most two waypoints
unchanged; on longer paths it returns the first waypoint twice (the first
loop iteration always registers a direction change against the unset
direction), then exactly the interior waypoints at which the direction of
travel changes, then the last waypoint.  In particular the first and last
waypoints are preserved, but the output holds one more waypoint than
"direction changes plus endpoints", and can exceed the input length. -/
theorem simplifyPath_characterization (p : List Waypoint) :
    (p.length ≤ 2 → simplifyPath p = p) ∧
    (∀ a b rest, p = a :: b :: rest → rest ≠ [] →
      simplifyPath p = a :: a :: (turnPoints p ++ [p.getLastD a])) := by
  constructor
  · intro h
    unfold simplifyPath
    rw [if_pos h]
  · intro a b rest hp hrest
    subst hp
    have hlen : ¬(a :: b :: rest).length ≤ 2 := by
      cases rest with
      | nil => exact absurd rfl hrest
      | cons x xs => simp [List.length_cons]
    have hstep : simplifyLoop a (b :: rest) none =
        a :: simplifyLoop b rest (some (dirOf a b)) := by
      show (if some (dirOf a b) ≠ none then
          a :: simplifyLoop b rest (some (dirOf a b))
        else simplifyLoop b rest none) = _
      rw [if_pos (by simp)]
    show (if (a :: b :: rest).length ≤ 2 then a :: b :: rest
      else (a :: simplifyLoop a (b :: rest) none) ++
        [(a :: b :: rest).getLast (List.cons_ne_nil a (b :: rest))]) = _
    rw [if_neg hlen, hstep, simplifyLoop_eq_turnPoints rest a b]
    rw [show (a :: b :: rest).getLast (List.cons_ne_nil a (b :: rest)) =
        (a :: b :: rest).getLastD a by
      rw [List.getLastD_eq_getLast?,
        List.getLast?_eq_getLast _ (List.cons_ne_nil a (b :: rest))]
      rfl]
    simp

/-- Path witnessing that `simplifyPath` keeps the stated shape: a straight
three-point path. -/
def straightPath3 : List Waypoint :=
  [⟨16, 16, 0, 0⟩, ⟨48, 16, 1, 0⟩, ⟨80, 16, 2, 0⟩]

/-- Witness for C8's characterization at a concrete path. -/
theorem simplifyPath_characterization_witness :
    simplifyPath straightPath3 =
      (⟨16, 16, 0, 0⟩ : Waypoint) :: (⟨16, 16, 0, 0⟩ : Waypoint) ::
        (turnPoints straightPath3 ++ [straightPath3.getLastD ⟨16, 16, 0, 0⟩]) :=
  (simplifyPath_characterization straightPath3).2 _ _ _ rfl (by decide)

/-- A path with one turn. -/
def turnPath3 : List Waypoint :=
  [⟨16, 16, 0, 0⟩, ⟨48, 16, 1, 0⟩, ⟨48, 48, 1, 1⟩]

/-- Counterexample to C8 as stated: on a three-waypoint path with one turn,
`simplifyPath` returns four waypoints — it increases the waypoint count
(the first waypoint is emitted twice). -/
theorem simplifyPath_increases_count :
    (simplifyPath turnPath3).length = 4 ∧ turnPath3.length = 3 ∧
      (simplifyPath turnPath3).get? 0 = (simplifyPath turnPath3).get? 1 := by
  decide

/-! ## C4: at most `maxFlankingEnemies` flanking slots -/

theorem mset_length_le {V : Type} (m : List (String × V)) (k : String) (v : V) :
    (mset m k v).length ≤ m.length + 1 := by
  unfold mset
  split
  · rw [List.length_map]
    omega
  · rw [List.length_append]
    simp

theorem calcFlanking_state_cases (env : SceneEnv) (s : BBState) (id : String)
    (p : Pos) :
    (calculateFlankingPosition env s id p).2.flankingPositions = s.flankingPositions ∨
    ∃ pos, (calculateFlankingPosition env s id p).2.flankingPositions =
      mset s.flankingPositions id pos := by
  unfold calculateFlankingPosition
  cases hpl : s.playerLastKnownPosition with
  | none => left; rfl
  | some pp =>
      simp only []
      cases hf : firstFreeCandidate env s id
          (prioritizeFlankingPositions (flankCandidatesOf pp) s.playerDirection) with
      | some pos => right; exact ⟨pos, rfl⟩
      | none =>
          cases hb : fallbackCandidate env s id
              (prioritizeFlankingPositions (flankCandidatesOf pp) s.playerDirection) with
          | some pos => right; exact ⟨pos, rfl⟩
          | none => left; rfl

theorem threat_keeps_flanking (s : BBState) (p : Option PlayerModel) :
    (calculateThreatLevel s p).flankingPositions = s.flankingPositions := by
  unfold calculateThreatLevel
  cases p with
  | none => rfl
  | some q =>
      by_cases h : q.isDestroyed
      · simp [h]
      · simp [h]

/-- C4.  In every blackboard state reachable through sequences of blackboard
operations in which `calculateFlankingPosition` is only invoked after
`canJoinFlanking()` returned `true`, the flanking-position map holds at most
`maxFlankingEnemies` (2) entries. -/
theorem flanking_slots_bounded (s : BBState) (h : BBReachable s) :
    s.flankingPositions.length ≤ maxFlankingEnemies := by
  induction h with
  | refl => simp [initialBB, maxFlankingEnemies]
  | @tail mid fin hsteps hstep ih =>
      cases hstep with
      | updatePlayer p d => exact ih
      | assignTargetStep id pref => exact ih
      | removeAgent id =>
          exact le_trans (List.length_filter_le _ _) ih
      | markAttacking id => exact ih
      | markNotAttacking id => exact ih
      | updateEnemyPos id p t => exact ih
      | assignPatrol id idx => exact ih
      | nextPatrol id idx => exact ih
      | threat player => rw [threat_keeps_flanking]; exact ih
      | calcFlanking env id p hguard =>
          have hlt : mid.flankingPositions.length < maxFlankingEnemies :=
            of_decide_eq_true hguard
          rcases calcFlanking_state_cases env mid id p with hcase | ⟨pos, hcase⟩
          · rw [hcase]; exact ih
          · rw [hcase]
            exact le_trans (mset_length_le _ _ _) (by omega)
      | clearStep =>
          simp [clearBB, initialBB]

/-- The state reached from the initial blackboard by one `updatePlayerInfo`
step. -/
def bbAfterUpdate : BBState :=
  { initialBB with
    playerLastKnownPosition := some (⟨400, 400⟩ : Pos)
    playerDirection := Dir.down }

/-- Witness for C4 at a concrete reachable state (one `updatePlayerInfo`
step from the initial blackboard). -/
theorem flanking_slots_bounded_witness :
    bbAfterUpdate.flankingPositions.length ≤ maxFlankingEnemies :=
  flanking_slots_bounded bbAfterUpdate
    (Relation.ReflTransGen.tail Relation.ReflTransGen.refl
      (BBStep.updatePlayer initialBB ⟨400, 400⟩ Dir.down))

/-! ## A* infrastructure: paths, invariants, auxiliary lemmas -/

/-- 4-adjacency of grid cells. -/
def adjacentCell (a b : Cell) : Prop :=
  (b.x - a.x).natAbs + (b.y - a.y).natAbs = 1

instance : DecidablePred fun p : Cell × Cell => adjacentCell p.1 p.2 := by
  intro p
  unfold adjacentCell
  infer_instance

/-- Embeds `ρ` is a walkable path from `s` to `g`: starts at `s`, ends at `g`, takes
4-adjacent steps, and every stepped-onto cell is walkable (the start cell
itself need not be: the source never checks it). -/
def IsPathTo (m : GameMap) (s : Cell) (ρ : List Cell) (g : Cell) : Prop :=
  ρ.head? = some s ∧ ρ.getLast? = some g ∧ List.Chain' adjacentCell ρ ∧
    ∀ c ∈ ρ.tail, isWalkable c m = true

def ReachableCell (m : GameMap) (s g : Cell) : Prop :=
  ∃ ρ, IsPathTo m s ρ g

/-- The chain carried by an open node is a nodup walkable path from the start
cell to the node's cell whose proper prefix is closed. -/
def ChainOKc (m : GameMap) (s : Cell) (closed : List Cell) (cell : Cell)
    (chain : List Cell) : Prop :=
  chain.head? = some s ∧ chain.getLast? = some cell ∧
  List.Chain' adjacentCell chain ∧
  (∀ c ∈ chain.tail, isWalkable c m = true) ∧
  chain.Nodup ∧
  (∀ c ∈ chain.dropLast, c ∈ closed) ∧
  cell ∉ closed

def ChainOK (m : GameMap) (s : Cell) (closed : List Cell) (n : ANode) : Prop :=
  ChainOKc m s closed n.cell n.chain

/-- The invariant of the A* main loop. -/
def LoopInv (m : GameMap) (s goal : Cell) (openL : List ANode)
    (closed : List Cell) : Prop :=
  (∀ n ∈ openL, ChainOK m s closed n) ∧
  (∀ n ∈ openL, isValidNode n.cell m = true) ∧
  (openL.map ANode.cell).Nodup ∧
  closed.Nodup ∧
  (∀ c ∈ closed, isValidNode c m = true) ∧
  goal ∉ closed ∧
  (s ∈ openL.map ANode.cell ∨ s ∈ closed) ∧
  (∀ c ∈ closed, ∀ nb ∈ getNeighbors c m, nb ∈ openL.map ANode.cell ∨ nb ∈ closed)

theorem minFIdxAux_lt (l : List ANode) :
    ∀ i best bestF, best < i → minFIdxAux l i best bestF < i + l.length := by
  induction l with
  | nil => intro i best bestF h; simpa using h.trans_le (Nat.le_add_right i 0)
  | cons n rest ih =>
      intro i best bestF h
      unfold minFIdxAux
      by_cases hf : n.f < bestF
      · rw [if_pos hf]
        have := ih (i + 1) i n.f (Nat.lt_succ_self i)
        simpa [Nat.add_assoc, Nat.add_comm, Nat.add_left_comm] using this
      · rw [if_neg hf]
        have := ih (i + 1) best bestF (h.trans (Nat.lt_succ_self i))
        simpa [Nat.add_assoc, Nat.add_comm, Nat.add_left_comm] using this

theorem minFIdx_lt_length (l : List ANode) (h : l ≠ []) :
    minFIdx l < l.length := by
  match l with
  | [] => exact absurd rfl h
  | n :: rest =>
      show minFIdxAux rest 1 0 n.f < rest.length + 1
      have := minFIdxAux_lt rest 1 0 n.f Nat.zero_lt_one
      omega

theorem getD_eq_get (l : List ANode) (i : Nat) (d : ANode) (h : i < l.length) :
    l.getD i d = l.get ⟨i, h⟩ := by
  simp [List.getD_eq_getElem?_getD, List.getElem?_eq_getElem h]

theorem map_eraseIdx_comm {α β : Type} (f : α → β) (l : List α) :
    ∀ i, (l.eraseIdx i).map f = (l.map f).eraseIdx i := by
  induction l with
  | nil => intro i; rfl
  | cons a rest ih =>
      intro i
      cases i with
      | zero => rfl
      | succ j => simpa using ih j

theorem mem_eraseIdx_of_ne {α : Type} (l : List α) :
    ∀ (i : Nat) (hi : i < l.length) (a : α), a ∈ l → a ≠ l.get ⟨i, hi⟩ →
      a ∈ l.eraseIdx i := by
  induction l with
  | nil => intro i hi; simp at hi
  | cons b rest ih =>
      intro i hi a ha hne
      cases i with
      | zero =>
          simp only [List.get] at hne
          rcases List.mem_cons.mp ha with h | h
          · exact absurd h hne
          · simpa using h
      | succ j =>
          rcases List.mem_cons.mp ha with h | h
          · simp [List.eraseIdx, h]
          · have := ih j (by simpa using hi) a h (by simpa using hne)
            simp [List.eraseIdx, this]

theorem get_not_mem_eraseIdx {α : Type} (l : List α) :
    ∀ (i : Nat) (hi : i < l.length), l.Nodup → l.get ⟨i, hi⟩ ∉ l.eraseIdx i := by
  induction l with
  | nil => intro i hi; simp at hi
  | cons b rest ih =>
      intro i hi hnd
      cases i with
      | zero =>
          simp only [List.get, List.eraseIdx]
          exact (List.nodup_cons.mp hnd).1
      | succ j =>
          have hji : j < rest.length := by simpa using hi
          have hrest := ih j hji (List.nodup_cons.mp hnd).2
          simp only [List.get, List.eraseIdx, List.mem_cons]
          push_neg
          refine ⟨?_, hrest⟩
          intro hc
          have hmem : rest.get ⟨j, hji⟩ ∈ rest := List.get_mem rest _ _
          rw [hc] at hmem
          exact (List.nodup_cons.mp hnd).1 hmem

theorem mem_updateFirst {p : ANode → Bool} {u : ANode → ANode}
    {l : List ANode} {n' : ANode} (h : n' ∈ updateFirst p u l) :
    n' ∈ l ∨ ∃ n, n ∈ l ∧ p n = true ∧ n' = u n := by
  induction l with
  | nil => simp [updateFirst] at h
  | cons a rest ih =>
      unfold updateFirst at h
      by_cases hp : p a
      · rw [if_pos hp] at h
        rcases List.mem_cons.mp h with h | h
        · exact Or.inr ⟨a, List.mem_cons_self a rest, hp, h⟩
        · exact Or.inl (List.mem_cons_of_mem a h)
      · rw [if_neg hp] at h
        rcases List.mem_cons.mp h with h | h
        · exact Or.inl (h ▸ List.mem_cons_self a rest)
        · rcases ih h with h | ⟨n, hn, hpn, he⟩
          · exact Or.inl (List.mem_cons_of_mem a h)
          · exact Or.inr ⟨n, List.mem_cons_of_mem a hn, hpn, he⟩

theorem map_cell_updateFirst (p : ANode → Bool) (u : ANode → ANode)
    (hu : ∀ n, (u n).cell = n.cell) (l : List ANode) :
    (updateFirst p u l).map ANode.cell = l.map ANode.cell := by
  induction l with
  | nil => rfl
  | cons a rest ih =>
      unfold updateFirst
      by_cases hp : p a
      · rw [if_pos hp]
        simp [hu a]
      · rw [if_neg hp]
        simpa using ih

theorem map_cell_updateFirst_relax (p : ANode → Bool) (gg : Nat)
    (ch : List Cell) (l : List ANode) :
    (updateFirst p
        (fun n => (⟨n.cell, gg, n.h, gg + n.h, ch⟩ : ANode)) l).map ANode.cell =
      l.map ANode.cell :=
  map_cell_updateFirst p
    (fun n => (⟨n.cell, gg, n.h, gg + n.h, ch⟩ : ANode)) (fun _ => rfl) l

theorem mem_getNeighbors_iff (c nb : Cell) (m : GameMap) :
    nb ∈ getNeighbors c m ↔ adjacentCell c nb ∧ isWalkable nb m = true := by
  unfold getNeighbors
  rw [List.mem_filter]
  constructor
  · rintro ⟨hmem, hw⟩
    refine ⟨?_, hw⟩
    simp only [List.mem_cons, List.not_mem_nil, or_false] at hmem
    rcases hmem with h | h | h | h <;> subst h <;> simp [adjacentCell]
  · rintro ⟨hadj, hw⟩
    refine ⟨?_, hw⟩
    unfold adjacentCell at hadj
    have hx : nb.x - c.x = 0 ∧ (nb.y - c.y = 1 ∨ nb.y - c.y = -1) ∨
        nb.y - c.y = 0 ∧ (nb.x - c.x = 1 ∨ nb.x - c.x = -1) := by omega
    have hcx : nb = ⟨nb.x, nb.y⟩ := rfl
    rcases hx with ⟨h1, h2 | h2⟩ | ⟨h1, h2 | h2⟩ <;>
      simp only [List.mem_cons, List.mem_singleton]
    · have : nb = ⟨c.x, c.y + 1⟩ := by
        cases nb; cases c; simp_all; omega
      simp [this]
    · have : nb = ⟨c.x, c.y - 1⟩ := by
        cases nb; cases c; simp_all; omega
      simp [this]
    · have : nb = ⟨c.x + 1, c.y⟩ := by
        cases nb; cases c; simp_all; omega
      simp [this]
    · have : nb = ⟨c.x - 1, c.y⟩ := by
        cases nb; cases c; simp_all; omega
      simp [this]

theorem isWalkable_valid (c : Cell) (m : GameMap) (h : isWalkable c m = true) :
    isValidNode c m = true := by
  unfold isWalkable at h
  by_cases hv : isValidNode c m
  · exact hv
  · rw [if_pos (by simp [hv])] at h
    exact absurd h (by simp)

/-! ## A* infrastructure: chain extension and relaxation lemmas -/

theorem mem_chain_closed (m : GameMap) (s : Cell) (closed : List Cell)
    (cur : ANode) (hc : ChainOK m s closed cur) :
    ∀ c ∈ cur.chain, c ∈ cur.cell :: closed := by
  intro c hcmem
  obtain ⟨h1, h2, _h3, _h4, _h5, h6, _h7⟩ := hc
  have hAne : cur.chain ≠ [] := by
    intro h
    rw [h] at h1
    exact absurd h1 (by simp)
  have hsplit := List.dropLast_append_getLast hAne
  rw [← hsplit] at hcmem
  rcases List.mem_append.mp hcmem with h | h
  · exact List.mem_cons_of_mem _ (h6 c h)
  · have hlast : cur.chain.getLast hAne = cur.cell := by
      have hgl := List.getLast?_eq_getLast cur.chain hAne
      rw [hgl] at h2
      exact Option.some.inj h2
    rw [List.mem_singleton.mp h, hlast]
    exact List.mem_cons_self _ _

theorem ChainOKc_extend (m : GameMap) (s : Cell) (closed : List Cell)
    (cur : ANode) (nb : Cell) (hc : ChainOK m s closed cur)
    (hadj : adjacentCell cur.cell nb) (hw : isWalkable nb m = true)
    (hnb : nb ∉ cur.cell :: closed) :
    ChainOKc m s (cur.cell :: closed) nb (cur.chain ++ [nb]) := by
  obtain ⟨h1, h2, h3, h4, h5, h6, h7⟩ := hc
  have hAne : cur.chain ≠ [] := by
    intro h
    rw [h] at h1
    exact absurd h1 (by simp)
  have hsub := mem_chain_closed m s closed cur ⟨h1, h2, h3, h4, h5, h6, h7⟩
  refine ⟨?_, ?_, ?_, ?_, ?_, ?_, hnb⟩
  · rw [List.head?_append_of_ne_nil _ hAne]
    exact h1
  · exact List.getLast?_concat _
  · rw [List.chain'_append]
    refine ⟨h3, List.chain'_singleton nb, ?_⟩
    intro x hx y hy
    rw [h2] at hx
    simp only [Option.mem_def, Option.some.injEq] at hx
    simp only [List.head?_cons, Option.mem_def, Option.some.injEq] at hy
    rw [← hx, ← hy] at *
    exact hadj
  · intro c hcmem
    match hch : cur.chain, hAne with
    | a :: A', _ =>
        rw [hch] at hcmem h4
        simp only [List.cons_append, List.tail_cons] at hcmem
        rcases List.mem_append.mp hcmem with h | h
        · exact h4 c h
        · rw [List.mem_singleton.mp h]
          exact hw
  · rw [List.nodup_append]
    refine ⟨h5, List.nodup_singleton nb, ?_⟩
    intro c hcmem
    simp only [List.mem_singleton]
    intro he
    exact hnb (he ▸ hsub c hcmem)
  · rw [List.dropLast_concat]
    exact hsub

theorem ChainOK_mono (m : GameMap) (s : Cell) (closed : List Cell)
    (newc : Cell) (n : ANode) (hc : ChainOK m s closed n)
    (hne : n.cell ≠ newc) : ChainOK m s (newc :: closed) n := by
  obtain ⟨h1, h2, h3, h4, h5, h6, h7⟩ := hc
  refine ⟨h1, h2, h3, h4, h5, ?_, ?_⟩
  · intro c hcmem
    exact List.mem_cons_of_mem _ (h6 c hcmem)
  · simp only [List.mem_cons]
    push_neg
    exact ⟨hne, h7⟩

theorem relax_ChainOK (m : GameMap) (s goal : Cell) (closed' : List Cell)
    (cur : ANode) (nb : Cell) (openA : List ANode)
    (hall : ∀ n ∈ openA, ChainOK m s closed' n)
    (hnew : nb ∉ closed' → ChainOKc m s closed' nb (cur.chain ++ [nb])) :
    ∀ n' ∈ relaxNeighbor goal cur closed' openA nb, ChainOK m s closed' n' := by
  intro n' hn'
  unfold relaxNeighbor at hn'
  by_cases hmem : nb ∈ closed'
  · rw [if_pos hmem] at hn'
    exact hall n' hn'
  · rw [if_neg hmem] at hn'
    cases hf : openA.find? (fun n => n.cell == nb) with
    | none =>
        rw [hf] at hn'
        simp only [] at hn'
        rcases List.mem_append.mp hn' with h | h
        · exact hall n' h
        · rw [List.mem_singleton.mp h]
          exact hnew hmem
    | some e =>
        rw [hf] at hn'
        simp only [] at hn'
        by_cases hg : cur.g + 1 < e.g
        · rw [if_pos hg] at hn'
          rcases mem_updateFirst hn' with h | ⟨n, hnmem, hpn, he⟩
          · exact hall n' h
          · have hcell : n.cell = nb := by simpa using hpn
            rw [he]
            show ChainOKc m s closed' n.cell (cur.chain ++ [nb])
            rw [hcell]
            exact hnew hmem
        · rw [if_neg hg] at hn'
          exact hall n' hn'

theorem relax_valid (m : GameMap) (s goal : Cell) (closed' : List Cell)
    (cur : ANode) (nb : Cell) (openA : List ANode)
    (hall : ∀ n ∈ openA, isValidNode n.cell m = true)
    (hv : isValidNode nb m = true) :
    ∀ n' ∈ relaxNeighbor goal cur closed' openA nb,
      isValidNode n'.cell m = true := by
  intro n' hn'
  unfold relaxNeighbor at hn'
  by_cases hmem : nb ∈ closed'
  · rw [if_pos hmem] at hn'
    exact hall n' hn'
  · rw [if_neg hmem] at hn'
    cases hf : openA.find? (fun n => n.cell == nb) with
    | none =>
        rw [hf] at hn'
        simp only [] at hn'
        rcases List.mem_append.mp hn' with h | h
        · exact hall n' h
        · rw [List.mem_singleton.mp h]
          exact hv
    | some e =>
        rw [hf] at hn'
        simp only [] at hn'
        by_cases hg : cur.g + 1 < e.g
        · rw [if_pos hg] at hn'
          rcases mem_updateFirst hn' with h | ⟨n, hnmem, hpn, he⟩
          · exact hall n' h
          · have hcell : n.cell = nb := by simpa using hpn
            rw [he]
            show isValidNode n.cell m = true
            rw [hcell]
            exact hv
        · rw [if_neg hg] at hn'
          exact hall n' hn'

theorem relax_keys_mono (goal : Cell) (closed' : List Cell) (cur : ANode)
    (nb : Cell) (openA : List ANode) (k : Cell)
    (hk : k ∈ openA.map ANode.cell) :
    k ∈ (relaxNeighbor goal cur closed' openA nb).map ANode.cell := by
  unfold relaxNeighbor
  by_cases hmem : nb ∈ closed'
  · rw [if_pos hmem]; exact hk
  · rw [if_neg hmem]
    cases hf : openA.find? (fun n => n.cell == nb) with
    | none =>
        simp only [List.map_append]
        exact List.mem_append_left _ hk
    | some e =>
        simp only []
        by_cases hg : cur.g + 1 < e.g
        · rw [if_pos hg, map_cell_updateFirst_relax]
          exact hk
        · rw [if_neg hg]; exact hk

theorem relax_keys_sub (goal : Cell) (closed' : List Cell) (cur : ANode)
    (nb : Cell) (openA : List ANode) (k : Cell)
    (hk : k ∈ (relaxNeighbor goal cur closed' openA nb).map ANode.cell) :
    k ∈ openA.map ANode.cell ∨ k = nb := by
  unfold relaxNeighbor at hk
  by_cases hmem : nb ∈ closed'
  · rw [if_pos hmem] at hk; exact Or.inl hk
  · rw [if_neg hmem] at hk
    cases hf : openA.find? (fun n => n.cell == nb) with
    | none =>
        rw [hf] at hk
        simp only [List.map_append, List.map_cons, List.map_nil] at hk
        rcases List.mem_append.mp hk with h | h
        · exact Or.inl h
        · exact Or.inr (by simpa using h)
    | some e =>
        rw [hf] at hk
        simp only [] at hk
        by_cases hg : cur.g + 1 < e.g
        · rw [if_pos hg, map_cell_updateFirst_relax] at hk
          exact Or.inl hk
        · rw [if_neg hg] at hk; exact Or.inl hk

theorem relax_nodup_keys (goal : Cell) (closed' : List Cell) (cur : ANode)
    (nb : Cell) (openA : List ANode)
    (hnd : (openA.map ANode.cell).Nodup) :
    ((relaxNeighbor goal cur closed' openA nb).map ANode.cell).Nodup := by
  unfold relaxNeighbor
  by_cases hmem : nb ∈ closed'
  · rw [if_pos hmem]; exact hnd
  · rw [if_neg hmem]
    cases hf : openA.find? (fun n => n.cell == nb) with
    | none =>
        simp only [List.map_append, List.map_cons, List.map_nil]
        rw [List.nodup_append]
        refine ⟨hnd, List.nodup_singleton nb, ?_⟩
        intro k hk
        simp only [List.mem_singleton]
        intro he
        rcases List.mem_map.mp hk with ⟨n, hn, hcell⟩
        have := List.find?_eq_none.mp hf n hn
        rw [he] at hcell
        exact this (by simpa using hcell)
    | some e =>
        simp only []
        by_cases hg : cur.g + 1 < e.g
        · rw [if_pos hg, map_cell_updateFirst_relax]
          exact hnd
        · rw [if_neg hg]; exact hnd

theorem relax_mem_self (goal : Cell) (closed' : List Cell) (cur : ANode)
    (nb : Cell) (openA : List ANode) (hmem : nb ∉ closed') :
    nb ∈ (relaxNeighbor goal cur closed' openA nb).map ANode.cell := by
  unfold relaxNeighbor
  rw [if_neg hmem]
  cases hf : openA.find? (fun n => n.cell == nb) with
  | none =>
      simp only [List.map_append, List.map_cons, List.map_nil]
      exact List.mem_append_right _ (by simp)
  | some e =>
      simp only []
      have hcell : e.cell = nb := by
        have := List.find?_some hf
        simpa using this
      have hemem : e ∈ openA := List.mem_of_find?_eq_some hf
      by_cases hg : cur.g + 1 < e.g
      · rw [if_pos hg, map_cell_updateFirst_relax]
        exact List.mem_map.mpr ⟨e, hemem, hcell⟩
      · rw [if_neg hg]
        exact List.mem_map.mpr ⟨e, hemem, hcell⟩

/-! ## A* infrastructure: neighbour-fold lemmas and the area bound -/

theorem foldRelax_keys_mono (goal : Cell) (closed' : List Cell)
    (cur : ANode) :
    ∀ (nbs : List Cell) (acc : List ANode) (k : Cell),
      k ∈ acc.map ANode.cell →
      k ∈ (nbs.foldl (relaxNeighbor goal cur closed') acc).map ANode.cell := by
  intro nbs
  induction nbs with
  | nil => intro acc k hk; exact hk
  | cons nb rest ih =>
      intro acc k hk
      exact ih _ k (relax_keys_mono goal closed' cur nb acc k hk)

theorem foldRelax_keys_sub (goal : Cell) (closed' : List Cell) (cur : ANode) :
    ∀ (nbs : List Cell) (acc : List ANode) (k : Cell),
      k ∈ (nbs.foldl (relaxNeighbor goal cur closed') acc).map ANode.cell →
      k ∈ acc.map ANode.cell ∨ k ∈ nbs := by
  intro nbs
  induction nbs with
  | nil => intro acc k hk; exact Or.inl hk
  | cons nb rest ih =>
      intro acc k hk
      rcases ih _ k hk with h | h
      · rcases relax_keys_sub goal closed' cur nb acc k h with h2 | h2
        · exact Or.inl h2
        · exact Or.inr (h2 ▸ List.mem_cons_self nb rest)
      · exact Or.inr (List.mem_cons_of_mem nb h)

theorem foldRelax_nodup (goal : Cell) (closed' : List Cell) (cur : ANode) :
    ∀ (nbs : List Cell) (acc : List ANode),
      (acc.map ANode.cell).Nodup →
      ((nbs.foldl (relaxNeighbor goal cur closed') acc).map ANode.cell).Nodup := by
  intro nbs
  induction nbs with
  | nil => intro acc h; exact h
  | cons nb rest ih =>
      intro acc h
      exact ih _ (relax_nodup_keys goal closed' cur nb acc h)

theorem foldRelax_valid (m : GameMap) (s goal : Cell) (closed' : List Cell)
    (cur : ANode) :
    ∀ (nbs : List Cell) (acc : List ANode),
      (∀ nb ∈ nbs, isValidNode nb m = true) →
      (∀ n ∈ acc, isValidNode n.cell m = true) →
      ∀ n' ∈ nbs.foldl (relaxNeighbor goal cur closed') acc,
        isValidNode n'.cell m = true := by
  intro nbs
  induction nbs with
  | nil => intro acc _ hacc n' hn'; exact hacc n' hn'
  | cons nb rest ih =>
      intro acc hnbs hacc n' hn'
      exact ih _ (fun x hx => hnbs x (List.mem_cons_of_mem nb hx))
        (relax_valid m s goal closed' cur nb acc hacc
          (hnbs nb (List.mem_cons_self nb rest))) n' hn'

theorem foldRelax_ChainOK (m : GameMap) (s goal : Cell) (closed' : List Cell)
    (cur : ANode) :
    ∀ (nbs : List Cell) (acc : List ANode),
      (∀ nb ∈ nbs, nb ∉ closed' → ChainOKc m s closed' nb (cur.chain ++ [nb])) →
      (∀ n ∈ acc, ChainOK m s closed' n) →
      ∀ n' ∈ nbs.foldl (relaxNeighbor goal cur closed') acc,
        ChainOK m s closed' n' := by
  intro nbs
  induction nbs with
  | nil => intro acc _ hacc n' hn'; exact hacc n' hn'
  | cons nb rest ih =>
      intro acc hnbs hacc n' hn'
      exact ih _ (fun x hx => hnbs x (List.mem_cons_of_mem nb hx))
        (relax_ChainOK m s goal closed' cur nb acc hacc
          (hnbs nb (List.mem_cons_self nb rest))) n' hn'

theorem foldRelax_covers (goal : Cell) (closed' : List Cell) (cur : ANode) :
    ∀ (nbs : List Cell) (acc : List ANode) (nb : Cell), nb ∈ nbs →
      nb ∈ (nbs.foldl (relaxNeighbor goal cur closed') acc).map ANode.cell ∨
        nb ∈ closed' := by
  intro nbs
  induction nbs with
  | nil => intro acc nb h; simp at h
  | cons x rest ih =>
      intro acc nb h
      rcases List.mem_cons.mp h with h | h
      · subst h
        by_cases hc : nb ∈ closed'
        · exact Or.inr hc
        · left
          exact foldRelax_keys_mono goal closed' cur rest _ nb
            (relax_mem_self goal closed' cur nb acc hc)
      · exact ih _ nb h

/-- A nodup list of in-bounds cells has at most `width * height` elements. -/
theorem closed_length_le_area (m : GameMap) (closed : List Cell)
    (hnd : closed.Nodup) (hval : ∀ c ∈ closed, isValidNode c m = true) :
    closed.length ≤ mapWidth m * mapHeight m := by
  classical
  set W := mapWidth m with hW
  set H := mapHeight m with hH
  have hbounds : ∀ c ∈ closed, c.x.toNat < W ∧ c.y.toNat < H ∧ 0 ≤ c.x ∧ 0 ≤ c.y := by
    intro c hc
    have := hval c hc
    unfold isValidNode at this
    simp only [Bool.and_eq_true, decide_eq_true_eq] at this
    obtain ⟨⟨⟨h1, h2⟩, h3⟩, h4⟩ := this
    refine ⟨?_, ?_, h1, h3⟩
    · omega
    · omega
  let f : Cell → Nat := fun c => c.x.toNat + W * c.y.toNat
  have hmapnd : (closed.map f).Nodup := by
    refine List.Nodup.map_on ?_ hnd
    intro c1 h1 c2 h2 hfe
    obtain ⟨hx1, hy1, hnn1, hnn1y⟩ := hbounds c1 h1
    obtain ⟨hx2, hy2, hnn2, hnn2y⟩ := hbounds c2 h2
    have hW0 : 0 < W := by omega
    have hxy : c1.x.toNat = c2.x.toNat ∧ c1.y.toNat = c2.y.toNat := by
      simp only [f] at hfe
      have hm1 : (c1.x.toNat + W * c1.y.toNat) % W = c1.x.toNat := by
        rw [Nat.add_mul_mod_self_left]
        exact Nat.mod_eq_of_lt hx1
      have hm2 : (c2.x.toNat + W * c2.y.toNat) % W = c2.x.toNat := by
        rw [Nat.add_mul_mod_self_left]
        exact Nat.mod_eq_of_lt hx2
      have hd1 : (c1.x.toNat + W * c1.y.toNat) / W = c1.y.toNat := by
        rw [Nat.add_mul_div_left _ _ hW0, Nat.div_eq_of_lt hx1, Nat.zero_add]
      have hd2 : (c2.x.toNat + W * c2.y.toNat) / W = c2.y.toNat := by
        rw [Nat.add_mul_div_left _ _ hW0, Nat.div_eq_of_lt hx2, Nat.zero_add]
      constructor
      · rw [← hm1, ← hm2, hfe]
      · rw [← hd1, ← hd2, hfe]
    obtain ⟨hxe, hye⟩ := hxy
    have hxi : c1.x = c2.x := by omega
    have hyi : c1.y = c2.y := by omega
    cases c1
    cases c2
    simp_all
  have hlt : ∀ v ∈ closed.map f, v < W * H := by
    intro v hv
    rcases List.mem_map.mp hv with ⟨c, hc, he⟩
    obtain ⟨hx, hy, _, _⟩ := hbounds c hc
    subst he
    calc c.x.toNat + W * c.y.toNat < W + W * c.y.toNat := by omega
    _ = W * (c.y.toNat + 1) := by ring
    _ ≤ W * H := Nat.mul_le_mul_left W (by omega)
  have hlen : closed.length = (closed.map f).length := (List.length_map _ _).symm
  rw [hlen, ← List.toFinset_card_of_nodup hmapnd]
  have hsub : (closed.map f).toFinset ⊆ Finset.range (W * H) := by
    intro v hv
    rw [Finset.mem_range]
    exact hlt v (List.mem_toFinset.mp hv)
  calc (closed.map f).toFinset.card ≤ (Finset.range (W * H)).card :=
        Finset.card_le_card hsub
  _ = W * H := Finset.card_range _

/-! ## A* infrastructure: the loop step preserves the invariant -/

theorem astar_step (m : GameMap) (s goal : Cell) (a : ANode) (rest : List ANode)
    (closed : List Cell) (hinv : LoopInv m s goal (a :: rest) closed)
    (cur : ANode) (hcur : cur = (a :: rest).getD (minFIdx (a :: rest)) a)
    (hne : cur.cell ≠ goal) (closed' : List Cell)
    (hcl : closed' = cur.cell :: closed) (next : List ANode)
    (hnext : next = (getNeighbors cur.cell m).foldl
      (relaxNeighbor goal cur closed') ((a :: rest).eraseIdx (minFIdx (a :: rest)))) :
    LoopInv m s goal next closed' ∧
    (∀ k, (k ∈ (a :: rest).map ANode.cell ∨ k ∈ closed) →
      (k ∈ next.map ANode.cell ∨ k ∈ closed')) ∧
    closed'.length = closed.length + 1 := by
  obtain ⟨hOK, hval, hkeysnd, hclnd, hclval, hgoal, hseen, hclosure⟩ := hinv
  have hlen : minFIdx (a :: rest) < (a :: rest).length :=
    minFIdx_lt_length (a :: rest) (List.cons_ne_nil a rest)
  have hcurget : cur = (a :: rest).get ⟨minFIdx (a :: rest), hlen⟩ := by
    rw [hcur]
    exact getD_eq_get _ _ _ hlen
  have hcurmem : cur ∈ (a :: rest) := by
    rw [hcurget]
    exact List.get_mem _ _ _
  have hcurOK := hOK cur hcurmem
  have hcurval := hval cur hcurmem
  have hcurnotcl : cur.cell ∉ closed := hcurOK.2.2.2.2.2.2
  have hEsub : ∀ n ∈ (a :: rest).eraseIdx (minFIdx (a :: rest)), n ∈ (a :: rest) :=
    fun n hn => List.mem_of_mem_eraseIdx hn
  have hkeysE : ((a :: rest).eraseIdx (minFIdx (a :: rest))).map ANode.cell =
      ((a :: rest).map ANode.cell).eraseIdx (minFIdx (a :: rest)) :=
    map_eraseIdx_comm ANode.cell (a :: rest) _
  have hilen2 : minFIdx (a :: rest) < ((a :: rest).map ANode.cell).length := by
    simpa using hlen
  have hcellget : ((a :: rest).map ANode.cell).get ⟨minFIdx (a :: rest), hilen2⟩ =
      cur.cell := by
    rw [List.get_map, ← hcurget]
  have hcurnotE : cur.cell ∉
      ((a :: rest).eraseIdx (minFIdx (a :: rest))).map ANode.cell := by
    rw [hkeysE, ← hcellget]
    exact get_not_mem_eraseIdx _ _ hilen2 hkeysnd
  have hEne : ∀ n ∈ (a :: rest).eraseIdx (minFIdx (a :: rest)), n.cell ≠ cur.cell := by
    intro n hn he
    exact hcurnotE (he ▸ List.mem_map_of_mem ANode.cell hn)
  have hkeypers : ∀ k, k ∈ (a :: rest).map ANode.cell →
      k ∈ next.map ANode.cell ∨ k ∈ closed' := by
    intro k hk
    by_cases hkc : k = cur.cell
    · right
      rw [hcl, hkc]
      exact List.mem_cons_self _ _
    · left
      have hkE : k ∈ ((a :: rest).map ANode.cell).eraseIdx (minFIdx (a :: rest)) :=
        mem_eraseIdx_of_ne _ _ hilen2 k hk (by rw [hcellget]; exact hkc)
      rw [← hkeysE] at hkE
      rw [hnext]
      exact foldRelax_keys_mono goal closed' cur _ _ k hkE
  have hnbvalid : ∀ nb ∈ getNeighbors cur.cell m, isValidNode nb m = true := by
    intro nb hnb
    exact isWalkable_valid nb m ((mem_getNeighbors_iff cur.cell nb m).mp hnb).2
  have hextend : ∀ nb ∈ getNeighbors cur.cell m, nb ∉ closed' →
      ChainOKc m s closed' nb (cur.chain ++ [nb]) := by
    intro nb hnb hnbcl
    obtain ⟨hadj, hw⟩ := (mem_getNeighbors_iff cur.cell nb m).mp hnb
    rw [hcl]
    exact ChainOKc_extend m s closed cur nb hcurOK hadj hw (hcl ▸ hnbcl)
  have hEOK : ∀ n ∈ (a :: rest).eraseIdx (minFIdx (a :: rest)),
      ChainOK m s closed' n := by
    intro n hn
    rw [hcl]
    exact ChainOK_mono m s closed cur.cell n (hOK n (hEsub n hn)) (hEne n hn)
  refine ⟨⟨?_, ?_, ?_, ?_, ?_, ?_, ?_, ?_⟩, ?_, ?_⟩
  · rw [hnext]
    exact foldRelax_ChainOK m s goal closed' cur _ _ hextend hEOK
  · rw [hnext]
    exact foldRelax_valid m s goal closed' cur _ _ hnbvalid
      (fun n hn => hval n (hEsub n hn))
  · rw [hnext]
    exact foldRelax_nodup goal closed' cur _ _
      (hkeysE ▸ List.Nodup.eraseIdx _ hkeysnd)
  · rw [hcl]
    exact List.nodup_cons.mpr ⟨hcurnotcl, hclnd⟩
  · rw [hcl]
    intro c hc
    rcases List.mem_cons.mp hc with h | h
    · rw [h]; exact hcurval
    · exact hclval c h
  · rw [hcl]
    simp only [List.mem_cons]
    push_neg
    exact ⟨fun h => hne h.symm, hgoal⟩
  · rcases hseen with h | h
    · rcases hkeypers s h with h2 | h2
      · exact Or.inl h2
      · exact Or.inr h2
    · exact Or.inr (hcl ▸ List.mem_cons_of_mem _ h)
  · intro c hc nb hnb
    rw [hcl] at hc
    rcases List.mem_cons.mp hc with h | h
    · subst h
      rw [hnext]
      exact foldRelax_covers goal closed' cur _ _ nb hnb
    · rcases hclosure c h nb hnb with h2 | h2
      · exact hkeypers nb h2
      · exact Or.inr (hcl ▸ List.mem_cons_of_mem _ h2)
  · intro k hk
    rcases hk with h | h
    · exact hkeypers k h
    · exact Or.inr (hcl ▸ List.mem_cons_of_mem _ h)
  · rw [hcl]
    rfl

/-! ## A* soundness and completeness -/

theorem astarLoop_sound (m : GameMap) (s goal : Cell) :
    ∀ (fuel : Nat) (openL : List ANode) (closed : List Cell),
      LoopInv m s goal openL closed →
      ∀ ch, astarLoop m goal fuel openL closed = some ch →
      ch.head? = some s ∧ ch.getLast? = some goal ∧
      List.Chain' adjacentCell ch ∧ (∀ c ∈ ch.tail, isWalkable c m = true) ∧
      ch.Nodup := by
  intro fuel
  induction fuel with
  | zero =>
      intro openL closed _ ch h
      simp [astarLoop] at h
  | succ f ih =>
      intro openL closed hinv ch h
      cases openL with
      | nil => simp [astarLoop] at h
      | cons a rest =>
          unfold astarLoop at h
          simp only [] at h
          by_cases hg : ((a :: rest).getD (minFIdx (a :: rest)) a).cell = goal
          · rw [if_pos hg] at h
            have hch : ch = ((a :: rest).getD (minFIdx (a :: rest)) a).chain :=
              (Option.some.inj h).symm
            have hlen : minFIdx (a :: rest) < (a :: rest).length :=
              minFIdx_lt_length (a :: rest) (List.cons_ne_nil a rest)
            have hcurmem : (a :: rest).getD (minFIdx (a :: rest)) a ∈ (a :: rest) := by
              rw [getD_eq_get _ _ _ hlen]
              exact List.get_mem _ _ _
            obtain ⟨h1, h2, h3, h4, h5, _, _⟩ := hinv.1 _ hcurmem
            rw [hch]
            exact ⟨h1, hg ▸ h2, h3, h4, h5⟩
          · rw [if_neg hg] at h
            obtain ⟨hinv', _, _⟩ :=
              astar_step m s goal a rest closed hinv _ rfl hg _ rfl _ rfl
            exact ih _ _ hinv' ch h

theorem get_zero_of_head (l : List Cell) (s : Cell) (h : l.head? = some s)
    (h0 : 0 < l.length) : l.get ⟨0, h0⟩ = s := by
  cases l with
  | nil => simp at h
  | cons c t => simpa using (Option.some.inj h)

theorem astarLoop_complete (m : GameMap) (s goal : Cell) (ρ : List Cell)
    (hρ : IsPathTo m s ρ goal) :
    ∀ (fuel : Nat) (openL : List ANode) (closed : List Cell),
      LoopInv m s goal openL closed →
      (∃ i, ∃ hi : i < ρ.length, ρ.get ⟨i, hi⟩ ∈ openL.map ANode.cell ∧
        ∀ j, ∀ hj : j < ρ.length, j < i → ρ.get ⟨j, hj⟩ ∈ closed) →
      mapWidth m * mapHeight m < closed.length + fuel →
      ∃ ch, astarLoop m goal fuel openL closed = some ch := by
  classical
  obtain ⟨hρh, hρl, hρc, hρw⟩ := hρ
  have hρne : ρ ≠ [] := by
    intro h
    rw [h] at hρh
    exact absurd hρh (by simp)
  intro fuel
  induction fuel with
  | zero =>
      intro openL closed hinv _ harea
      have := closed_length_le_area m closed hinv.2.2.2.1 hinv.2.2.2.2.1
      omega
  | succ f ih =>
      intro openL closed hinv hwit harea
      obtain ⟨i, hi, hikeys, hiprefix⟩ := hwit
      cases openL with
      | nil => simp at hikeys
      | cons a rest =>
          by_cases hg : ((a :: rest).getD (minFIdx (a :: rest)) a).cell = goal
          · refine ⟨((a :: rest).getD (minFIdx (a :: rest)) a).chain, ?_⟩
            unfold astarLoop
            simp only []
            rw [if_pos hg]
          · obtain ⟨hinv', hpers, hclen⟩ :=
              astar_step m s goal a rest closed hinv _ rfl hg _ rfl _ rfl
            have hgoalcl' : goal ∉
                ((a :: rest).getD (minFIdx (a :: rest)) a).cell :: closed :=
              hinv'.2.2.2.2.2.1
            -- the reference path's last cell is the goal and is never closed
            have hlenpos : 0 < ρ.length := by
              cases ρ with
              | nil => exact absurd rfl hρne
              | cons c t => simp
            have hlastlt : ρ.length - 1 < ρ.length := by omega
            have hlastidx : ρ.get ⟨ρ.length - 1, hlastlt⟩ = goal := by
              have hgl := List.getLast?_eq_getLast ρ hρne
              rw [hgl] at hρl
              have hgg := Option.some.inj hρl
              rw [← hgg]
              exact (List.getLast_eq_get ρ hρne).symm
            have hQex : ∃ n, ∃ hn : n < ρ.length,
                ρ.get ⟨n, hn⟩ ∉
                  ((a :: rest).getD (minFIdx (a :: rest)) a).cell :: closed := by
              refine ⟨ρ.length - 1, hlastlt, ?_⟩
              rw [hlastidx]
              exact hgoalcl'
            have hm0len := (Nat.find_spec hQex).fst
            have hm0notcl := (Nat.find_spec hQex).snd
            have hm0prefix : ∀ j, ∀ hj : j < ρ.length, j < Nat.find hQex →
                ρ.get ⟨j, hj⟩ ∈
                  ((a :: rest).getD (minFIdx (a :: rest)) a).cell :: closed := by
              intro j hj hjlt
              have hnot := Nat.find_min hQex hjlt
              push_neg at hnot
              exact hnot hj
            have hm0keys : ρ.get ⟨Nat.find hQex, hm0len⟩ ∈
                ((getNeighbors ((a :: rest).getD (minFIdx (a :: rest)) a).cell m).foldl
                  (relaxNeighbor goal ((a :: rest).getD (minFIdx (a :: rest)) a)
                    (((a :: rest).getD (minFIdx (a :: rest)) a).cell :: closed))
                  ((a :: rest).eraseIdx (minFIdx (a :: rest)))).map ANode.cell := by
              by_cases h0 : Nat.find hQex = 0
              · have hgz : ρ.get ⟨Nat.find hQex, hm0len⟩ = s := by
                  have hge : ρ.get ⟨Nat.find hQex, hm0len⟩ = ρ.get ⟨0, hlenpos⟩ := by
                    congr 1
                    exact Fin.ext (show Nat.find hQex = 0 from h0)
                  rw [hge]
                  exact get_zero_of_head ρ s hρh hlenpos
                rcases hinv'.2.2.2.2.2.2.1 with h | h
                · rw [hgz]; exact h
                · exfalso
                  rw [hgz] at hm0notcl
                  exact hm0notcl h
              · have hpos : 0 < Nat.find hQex := Nat.pos_of_ne_zero h0
                have hklen : Nat.find hQex - 1 < ρ.length := by omega
                have hk1len : Nat.find hQex - 1 + 1 < ρ.length := by omega
                have hkcl : ρ.get ⟨Nat.find hQex - 1, hklen⟩ ∈
                    ((a :: rest).getD (minFIdx (a :: rest)) a).cell :: closed :=
                  hm0prefix _ hklen (by omega)
                have hadj : adjacentCell (ρ.get ⟨Nat.find hQex - 1, hklen⟩)
                    (ρ.get ⟨Nat.find hQex - 1 + 1, hk1len⟩) :=
                  List.chain'_iff_get.mp hρc _ (by omega)
                have hwk : isWalkable (ρ.get ⟨Nat.find hQex - 1 + 1, hk1len⟩) m =
                    true := by
                  have htl : Nat.find hQex - 1 < ρ.tail.length := by
                    cases ρ with
                    | nil => exact absurd rfl hρne
                    | cons c t => simpa using hk1len
                  have hgt := List.get_tail ρ (Nat.find hQex - 1) htl
                  have hmemtl : ρ.tail.get ⟨Nat.find hQex - 1, htl⟩ ∈ ρ.tail :=
                    List.get_mem _ _ _
                  rw [hgt] at hmemtl
                  exact hρw _ hmemtl
                have hnbmem : ρ.get ⟨Nat.find hQex - 1 + 1, hk1len⟩ ∈
                    getNeighbors (ρ.get ⟨Nat.find hQex - 1, hklen⟩) m :=
                  (mem_getNeighbors_iff _ _ m).mpr ⟨hadj, hwk⟩
                have hge : ρ.get ⟨Nat.find hQex, hm0len⟩ =
                    ρ.get ⟨Nat.find hQex - 1 + 1, hk1len⟩ := by
                  congr 1
                  exact Fin.ext (show Nat.find hQex = Nat.find hQex - 1 + 1 by omega)
                rcases hinv'.2.2.2.2.2.2.2 _ hkcl _ hnbmem with h | h
                · rw [hge]
                  exact h
                · exfalso
                  rw [hge] at hm0notcl
                  exact hm0notcl h
            obtain ⟨ch, hch⟩ := ih _ _ hinv'
              ⟨Nat.find hQex, hm0len, hm0keys, hm0prefix⟩ (by omega)
            refine ⟨ch, ?_⟩
            unfold astarLoop
            simp only []
            rw [if_neg hg]
            exact hch

/-! ## findPath-level corollaries -/

theorem findPath_initial_inv (m : GameMap) (sc gc : Cell)
    (hs : isValidNode sc m = true) (g h f : Nat) :
    LoopInv m sc gc [⟨sc, g, h, f, [sc]⟩] [] := by
  refine ⟨?_, ?_, ?_, ?_, ?_, ?_, ?_, ?_⟩
  · intro n hn
    rw [List.mem_singleton.mp hn]
    exact ⟨rfl, rfl, List.chain'_singleton sc, by simp, List.nodup_singleton sc,
      by simp, by simp⟩
  · intro n hn
    rw [List.mem_singleton.mp hn]
    exact hs
  · simp
  · exact List.nodup_nil
  · simp
  · simp
  · simp
  · simp

theorem findPath_sound (start goal : WorldPos) (m : GameMap) (ts : Int)
    (p : List Waypoint) (h : findPath start goal m ts = some p) :
    ∃ ch, ch.head? = some (cellOf start ts) ∧
      ch.getLast? = some (cellOf goal ts) ∧
      List.Chain' adjacentCell ch ∧
      (∀ c ∈ ch.tail, isWalkable c m = true) ∧ ch.Nodup ∧
      p = reconstructPath ch ts := by
  unfold findPath at h
  simp only [] at h
  by_cases hv : (!isValidNode (cellOf start ts) m ||
      !isValidNode (cellOf goal ts) m) = true
  · rw [if_pos hv] at h
    simp at h
  · rw [if_neg hv] at h
    have hvf := Bool.eq_false_iff.mpr hv
    simp only [Bool.or_eq_false_iff, Bool.not_eq_false'] at hvf
    obtain ⟨hsv, hgv⟩ := hvf
    cases hloop : astarLoop m (cellOf goal ts) (mapWidth m * mapHeight m + 1)
        [⟨cellOf start ts, 0, heuristic (cellOf start ts) (cellOf goal ts),
          heuristic (cellOf start ts) (cellOf goal ts),
          [cellOf start ts]⟩] [] with
    | none => rw [hloop] at h; simp at h
    | some ch =>
        rw [hloop] at h
        simp only [Option.some.injEq] at h
        obtain ⟨h1, h2, h3, h4, h5⟩ := astarLoop_sound m (cellOf start ts)
          (cellOf goal ts) _ _ _
          (findPath_initial_inv m (cellOf start ts) (cellOf goal ts) hsv _ _ _)
          ch hloop
        exact ⟨ch, h1, h2, h3, h4, h5, h.symm⟩

theorem findPath_complete (start goal : WorldPos) (m : GameMap) (ts : Int)
    (hsv : isValidNode (cellOf start ts) m = true)
    (hgv : isValidNode (cellOf goal ts) m = true)
    (hreach : ReachableCell m (cellOf start ts) (cellOf goal ts)) :
    ∃ p, findPath start goal m ts = some p := by
  obtain ⟨ρ, hρ⟩ := hreach
  have hρh := hρ.1
  have hlenpos : 0 < ρ.length := by
    cases hc : ρ with
    | nil => rw [hc] at hρh; exact absurd hρh (by simp)
    | cons c t => simp
  have hwit : ∃ i, ∃ hi : i < ρ.length, ρ.get ⟨i, hi⟩ ∈
      ([⟨cellOf start ts, 0, heuristic (cellOf start ts) (cellOf goal ts),
        heuristic (cellOf start ts) (cellOf goal ts),
        [cellOf start ts]⟩] : List ANode).map ANode.cell ∧
      ∀ j, ∀ hj : j < ρ.length, j < i → ρ.get ⟨j, hj⟩ ∈ ([] : List Cell) := by
    refine ⟨0, hlenpos, ?_, ?_⟩
    · rw [get_zero_of_head ρ (cellOf start ts) hρh hlenpos]
      simp
    · intro j hj hjlt
      omega
  obtain ⟨ch, hch⟩ := astarLoop_complete m (cellOf start ts) (cellOf goal ts) ρ hρ
    (mapWidth m * mapHeight m + 1) _ _
    (findPath_initial_inv m (cellOf start ts) (cellOf goal ts) hsv _ _ _) hwit
    (by simp)
  refine ⟨reconstructPath ch ts, ?_⟩
  unfold findPath
  simp only []
  rw [if_neg (by simp [hsv, hgv]), hch]

theorem findPath_none_of_unreachable (start goal : WorldPos) (m : GameMap)
    (ts : Int) (hnr : ¬ReachableCell m (cellOf start ts) (cellOf goal ts)) :
    findPath start goal m ts = none := by
  cases hfp : findPath start goal m ts with
  | none => rfl
  | some p =>
      exfalso
      obtain ⟨ch, h1, h2, h3, h4, _, _⟩ := findPath_sound start goal m ts p hfp
      exact hnr ⟨ch, h1, h2, h3, h4⟩

/-! ## C10: every returned waypoint is walkable, consecutive waypoints are
4-adjacent, and the start cell is dropped -/

/-- C10.  Whenever `findPath` returns a path, every returned waypoint's grid
cell is a walkable tile, consecutive waypoints occupy 4-adjacent grid cells,
and the start cell is never among the returned waypoints. -/
theorem findPath_waypoints_walkable_adjacent (start goal : WorldPos)
    (m : GameMap) (p : List Waypoint) (h : findPath start goal m 32 = some p) :
    (∀ w ∈ p, isWalkable ⟨w.gridX, w.gridY⟩ m = true) ∧
    List.Chain' (fun a b =>
      adjacentCell ⟨a.gridX, a.gridY⟩ ⟨b.gridX, b.gridY⟩) p ∧
    (∀ w ∈ p, (⟨w.gridX, w.gridY⟩ : Cell) ≠ cellOf start 32) := by
  obtain ⟨ch, h1, h2, h3, h4, h5, hp⟩ := findPath_sound start goal m 32 p h
  have hchtail : ch = cellOf start 32 :: ch.tail := by
    cases hc : ch with
    | nil => rw [hc] at h1; exact absurd h1 (by simp)
    | cons c t =>
        rw [hc] at h1
        have := Option.some.inj (by simpa using h1)
        simp [this]
  have hrecon : p = (ch.tail.map (fun c =>
      (⟨c.x * 32 + 16, c.y * 32 + 16, c.x, c.y⟩ : Waypoint))) := by
    rw [hp]
    unfold reconstructPath
    rw [← List.map_drop, List.drop_one]
    norm_num
  have hcelleq : ∀ c : Cell,
      ((⟨(⟨c.x * 32 + 16, c.y * 32 + 16, c.x, c.y⟩ : Waypoint).gridX,
        (⟨c.x * 32 + 16, c.y * 32 + 16, c.x, c.y⟩ : Waypoint).gridY⟩ : Cell)) = c :=
    fun c => rfl
  refine ⟨?_, ?_, ?_⟩
  · intro w hw
    rw [hrecon] at hw
    rcases List.mem_map.mp hw with ⟨c, hc, he⟩
    rw [← he, hcelleq]
    exact h4 c hc
  · rw [hrecon, List.chain'_map]
    have htl := List.Chain'.tail h3
    refine htl.imp ?_
    intro a b hab
    rw [hcelleq a, hcelleq b] at *
    exact hab
  · intro w hw
    rw [hrecon] at hw
    rcases List.mem_map.mp hw with ⟨c, hc, he⟩
    rw [← he, hcelleq]
    intro heq
    have hnth : cellOf start 32 ∉ ch.tail := by
      have hnd := h5
      rw [hchtail] at hnd
      exact (List.nodup_cons.mp hnd).1
    rw [heq] at hc
    exact hnth hc

/-- Witness for C10 on a concrete map. -/
theorem findPath_waypoints_witness :
    (∀ w ∈ [(⟨48, 16, 1, 0⟩ : Waypoint)],
      isWalkable ⟨w.gridX, w.gridY⟩ ([[0, 0]] : GameMap) = true) ∧
    List.Chain' (fun a b =>
      adjacentCell ⟨a.gridX, a.gridY⟩ ⟨b.gridX, b.gridY⟩)
      [(⟨48, 16, 1, 0⟩ : Waypoint)] ∧
    (∀ w ∈ [(⟨48, 16, 1, 0⟩ : Waypoint)],
      (⟨w.gridX, w.gridY⟩ : Cell) ≠ cellOf ⟨0, 0⟩ 32) :=
  findPath_waypoints_walkable_adjacent ⟨0, 0⟩ ⟨32, 0⟩ [[0, 0]]
    [⟨48, 16, 1, 0⟩] (by decide)

/-! ## C7: endpoint validation -/

/-- Counterexample to C7 as stated: the start cell of the 1×2 map `[[1,0]]`
is a brick, yet `findPath` returns a (non-`none`) path: `isValidNode`
checks bounds only, not walkability. -/
theorem findPath_blocked_start_counterexample :
    isWalkable (cellOf ⟨0, 0⟩ 32) ([[1, 0]] : GameMap) = false ∧
    findPath ⟨0, 0⟩ ⟨32, 0⟩ ([[1, 0]] : GameMap) 32 ≠ none := by decide

theorem getLast?_mem_tail (l : List Cell) (g : Cell) (hl : l.getLast? = some g)
    (hlen : 2 ≤ l.length) : g ∈ l.tail := by
  cases l with
  | nil => simp at hl
  | cons a t =>
      cases t with
      | nil => simp at hlen
      | cons b t' =>
          have : (a :: b :: t').getLast? = (b :: t').getLast? := by
            rw [List.getLast?_cons_cons]
          rw [this] at hl
          have hmem : g ∈ b :: t' := List.mem_of_mem_getLast? (by rw [hl]; rfl)
          simpa using hmem

/-- C7 (amended).  `findPath` validates that both endpoint cells are within
the grid bounds (not that they are walkable): it returns none whenever
either endpoint cell is out of bounds, and whenever the goal cell is a
blocking tile distinct from the start cell; a blocking start cell alone does
not force none. -/
theorem findPath_endpoint_validation (start goal : WorldPos) (m : GameMap)
    (ts : Int) :
    ((isValidNode (cellOf start ts) m = false ∨
        isValidNode (cellOf goal ts) m = false) →
      findPath start goal m ts = none) ∧
    (isWalkable (cellOf goal ts) m = false → cellOf goal ts ≠ cellOf start ts →
      findPath start goal m ts = none) := by
  constructor
  · intro h
    unfold findPath
    simp only []
    rw [if_pos ?_]
    rcases h with h | h <;> simp [h]
  · intro hgw hne
    apply findPath_none_of_unreachable
    rintro ⟨ρ, hh, hl, _hc, hw⟩
    by_cases hlen : 2 ≤ ρ.length
    · have hmem := getLast?_mem_tail ρ _ hl hlen
      rw [hw _ hmem] at hgw
      exact absurd hgw (by simp)
    · cases ρ with
      | nil => simp at hh
      | cons a t =>
          cases t with
          | nil =>
              have ha1 := Option.some.inj (by simpa using hh)
              have ha2 := Option.some.inj (by simpa using hl)
              exact hne (by rw [← ha1, ← ha2])
          | cons b t' => simp at hlen

/-- Witness for C7's amended statement: goal cell blocked on `[[0,1]]`. -/
theorem findPath_endpoint_validation_witness :
    findPath ⟨0, 0⟩ ⟨32, 0⟩ ([[0, 1]] : GameMap) 32 = none :=
  (findPath_endpoint_validation ⟨0, 0⟩ ⟨32, 0⟩ ([[0, 1]] : GameMap) 32).2
    (by decide) (by decide)

/-! ## C2 infrastructure: monotone ±1 walks on a line -/

/-- A nodup ±1 walk over the integers is monotone. -/
theorem walk_mono (xs : List Int)
    (hch : List.Chain' (fun a b => b = a + 1 ∨ b = a - 1) xs)
    (hnd : xs.Nodup) :
    List.Chain' (fun a b => b = a + 1) xs ∨
    List.Chain' (fun a b => b = a - 1) xs := by
  induction xs with
  | nil => exact Or.inl List.chain'_nil
  | cons a t ih =>
      cases t with
      | nil => exact Or.inl (List.chain'_singleton a)
      | cons b t' =>
          have hab := (List.chain'_cons.mp hch).1
          have hbt := (List.chain'_cons.mp hch).2
          have hndt := (List.nodup_cons.mp hnd).2
          have hanotbt := (List.nodup_cons.mp hnd).1
          rcases ih hbt hndt with hup | hdown
          · rcases hab with h | h
            · exact Or.inl (List.chain'_cons.mpr ⟨h, hup⟩)
            · cases t' with
              | nil => exact Or.inr (List.chain'_cons.mpr ⟨h, List.chain'_singleton b⟩)
              | cons c t'' =>
                  exfalso
                  have hbc := (List.chain'_cons.mp hup).1
                  have : c = a := by omega
                  apply hanotbt
                  rw [← this]
                  exact List.mem_cons_of_mem b (List.mem_cons_self c t'')
          · rcases hab with h | h
            · cases t' with
              | nil => exact Or.inl (List.chain'_cons.mpr ⟨h, List.chain'_singleton b⟩)
              | cons c t'' =>
                  exfalso
                  have hbc := (List.chain'_cons.mp hdown).1
                  have : c = a := by omega
                  apply hanotbt
                  rw [← this]
                  exact List.mem_cons_of_mem b (List.mem_cons_self c t'')
            · exact Or.inr (List.chain'_cons.mpr ⟨h, hdown⟩)

theorem chain_up_getLast (t : List Int) :
    ∀ a : Int, List.Chain' (fun x y => y = x + 1) (a :: t) →
      (a :: t).getLast (List.cons_ne_nil a t) = a + t.length := by
  induction t with
  | nil => intro a _; simp
  | cons b t' ih =>
      intro a hch
      have hab := (List.chain'_cons.mp hch).1
      have hbt := (List.chain'_cons.mp hch).2
      have := ih b hbt
      rw [List.getLast_cons (List.cons_ne_nil b t')]
      rw [this, hab]
      simp only [List.length_cons]
      push_cast
      ring

theorem chain_down_getLast (t : List Int) :
    ∀ a : Int, List.Chain' (fun x y => y = x - 1) (a :: t) →
      (a :: t).getLast (List.cons_ne_nil a t) = a - t.length := by
  induction t with
  | nil => intro a _; simp
  | cons b t' ih =>
      intro a hch
      have hab := (List.chain'_cons.mp hch).1
      have hbt := (List.chain'_cons.mp hch).2
      have := ih b hbt
      rw [List.getLast_cons (List.cons_ne_nil b t')]
      rw [this, hab]
      simp only [List.length_cons]
      push_cast
      ring

/-- The length of a nodup ±1 walk equals the distance between its endpoints
plus one. -/
theorem walk_length (xs : List Int)
    (hch : List.Chain' (fun a b => b = a + 1 ∨ b = a - 1) xs)
    (hnd : xs.Nodup) (a b : Int) (hh : xs.head? = some a)
    (hl : xs.getLast? = some b) : xs.length = (b - a).natAbs + 1 := by
  cases xs with
  | nil => simp at hh
  | cons x t =>
      have hxa : x = a := Option.some.inj (by simpa using hh)
      have hgl : (x :: t).getLast (List.cons_ne_nil x t) = b := by
        have := List.getLast?_eq_getLast (x :: t) (List.cons_ne_nil x t)
        rw [this] at hl
        exact Option.some.inj hl
      rcases walk_mono (x :: t) hch hnd with hup | hdown
      · have := chain_up_getLast t x hup
        rw [hgl] at this
        have hlen : (x :: t).length = t.length + 1 := by simp
        rw [hlen]
        subst hxa
        omega
      · have := chain_down_getLast t x hdown
        rw [hgl] at this
        have hlen : (x :: t).length = t.length + 1 := by simp
        rw [hlen]
        subst hxa
        omega

/-! ## C2 infrastructure: corridor maps -/

/-- A map whose only walkable tiles form the horizontal row `y0`: the
"obstacle-free straight corridor", everything else brick. -/
def corridorMapH (W H y0 : Nat) : GameMap :=
  (List.range H).map
    (fun r => if r = y0 then List.replicate W 0 else List.replicate W 1)

/-- A map whose only walkable tiles form the vertical column `x0`. -/
def corridorMapV (W H x0 : Nat) : GameMap :=
  (List.range H).map (fun _r => (List.range W).map (fun c => if c = x0 then 0 else 1))

theorem corridorH_height (W H y0 : Nat) :
    mapHeight (corridorMapH W H y0) = H := by
  simp [mapHeight, corridorMapH]

theorem corridorH_width (W H y0 : Nat) (hH : 0 < H) :
    mapWidth (corridorMapH W H y0) = W := by
  unfold mapWidth corridorMapH
  cases H with
  | zero => omega
  | succ n =>
      rw [List.range_succ_eq_map]
      show (if 0 = y0 then List.replicate W 0 else List.replicate W 1).length = W
      split <;> simp

theorem corridorH_row (W H y0 k : Nat) (hk : k < H) :
    (corridorMapH W H y0).getD k [] =
      (if k = y0 then List.replicate W 0 else List.replicate W 1) := by
  unfold corridorMapH
  rw [List.getD_eq_getElem?_getD, List.getElem?_map, List.getElem?_range hk]
  rfl

theorem corridorV_height (W H x0 : Nat) :
    mapHeight (corridorMapV W H x0) = H := by
  simp [mapHeight, corridorMapV]

theorem corridorV_width (W H x0 : Nat) (hH : 0 < H) :
    mapWidth (corridorMapV W H x0) = W := by
  unfold mapWidth corridorMapV
  cases H with
  | zero => omega
  | succ n =>
      rw [List.range_succ_eq_map]
      show ((List.range W).map _).length = W
      simp

theorem corridorV_row (W H x0 k : Nat) (hk : k < H) :
    (corridorMapV W H x0).getD k [] =
      (List.range W).map (fun c => if c = x0 then 0 else 1) := by
  unfold corridorMapV
  rw [List.getD_eq_getElem?_getD, List.getElem?_map, List.getElem?_range hk]
  rfl

theorem corridorH_walkable (W H y0 : Nat) (hy0 : y0 < H) (c : Cell) :
    isWalkable c (corridorMapH W H y0) = true ↔
      0 ≤ c.x ∧ c.x < (W : Int) ∧ c.y = (y0 : Int) := by
  have hH : 0 < H := by omega
  unfold isWalkable
  by_cases hv : isValidNode c (corridorMapH W H y0) = true
  · rw [if_neg (by simp [hv])]
    have hv' := hv
    unfold isValidNode at hv'
    rw [corridorH_width W H y0 hH, corridorH_height W H y0] at hv'
    simp only [Bool.and_eq_true, decide_eq_true_eq] at hv'
    obtain ⟨⟨⟨hx0, hxW⟩, hy0'⟩, hyH⟩ := hv'
    have hkH : c.y.toNat < H := by omega
    rw [corridorH_row W H y0 c.y.toNat hkH]
    by_cases hyy : c.y.toNat = y0
    · rw [if_pos hyy]
      have hxlt : c.x.toNat < W := by omega
      rw [List.get?_eq_getElem?, List.getElem?_replicate, if_pos hxlt]
      simp only []
      constructor
      · intro _
        exact ⟨hx0, hxW, by omega⟩
      · intro _
        rfl
    · rw [if_neg hyy]
      rw [List.get?_eq_getElem?, List.getElem?_replicate]
      constructor
      · intro h
        by_cases hxlt : c.x.toNat < W
        · rw [if_pos hxlt] at h
          simp at h
        · rw [if_neg hxlt] at h
          simp at h
      · rintro ⟨_, _, h3⟩
        exfalso
        apply hyy
        omega
  · rw [if_pos (by simp [hv])]
    constructor
    · intro h
      simp at h
    · rintro ⟨h1, h2, h3⟩
      exfalso
      apply hv
      unfold isValidNode
      rw [corridorH_width W H y0 hH, corridorH_height W H y0]
      simp only [Bool.and_eq_true, decide_eq_true_eq]
      refine ⟨⟨⟨h1, h2⟩, by omega⟩, by omega⟩

theorem corridorV_walkable (W H x0 : Nat) (hx0 : x0 < W) (hH : 0 < H) (c : Cell) :
    isWalkable c (corridorMapV W H x0) = true ↔
      0 ≤ c.y ∧ c.y < (H : Int) ∧ c.x = (x0 : Int) := by
  unfold isWalkable
  by_cases hv : isValidNode c (corridorMapV W H x0) = true
  · rw [if_neg (by simp [hv])]
    have hv' := hv
    unfold isValidNode at hv'
    rw [corridorV_width W H x0 hH, corridorV_height W H x0] at hv'
    simp only [Bool.and_eq_true, decide_eq_true_eq] at hv'
    obtain ⟨⟨⟨hx0', hxW⟩, hy0'⟩, hyH⟩ := hv'
    have hkH : c.y.toNat < H := by omega
    rw [corridorV_row W H x0 c.y.toNat hkH]
    have hxlt : c.x.toNat < W := by omega
    rw [List.get?_eq_getElem?, List.getElem?_map, List.getElem?_range hxlt]
    simp only [Option.map_some']
    by_cases hxx : c.x.toNat = x0
    · rw [if_pos hxx]
      constructor
      · intro _
        exact ⟨hy0', hyH, by omega⟩
      · intro _
        rfl
    · rw [if_neg hxx]
      constructor
      · intro h
        simp at h
      · rintro ⟨_, _, h3⟩
        exfalso
        apply hxx
        omega
  · rw [if_pos (by simp [hv])]
    constructor
    · intro h
      simp at h
    · rintro ⟨h1, h2, h3⟩
      exfalso
      apply hv
      unfold isValidNode
      rw [corridorV_width W H x0 hH, corridorV_height W H x0]
      simp only [Bool.and_eq_true, decide_eq_true_eq]
      refine ⟨⟨⟨by omega, by omega⟩, h1⟩, h2⟩

/-! ## C2 infrastructure: straight segments are walkable paths -/

theorem rangeMap_head? (n : Nat) (f : Nat → Cell) :
    ((List.range (n + 1)).map f).head? = some (f 0) := by
  rw [List.range_succ_eq_map]
  rfl

theorem rangeMap_getLast? (n : Nat) (f : Nat → Cell) :
    ((List.range (n + 1)).map f).getLast? = some (f n) := by
  rw [List.getLast?_eq_getElem?]
  simp only [List.length_map, List.length_range, Nat.add_sub_cancel]
  rw [List.getElem?_map, List.getElem?_range (Nat.lt_succ_self n)]
  rfl

theorem rangeMap_chain' (n : Nat) (f : Nat → Cell)
    (hf : ∀ k, k < n → adjacentCell (f k) (f (k + 1))) :
    List.Chain' adjacentCell ((List.range (n + 1)).map f) := by
  rw [List.chain'_iff_get]
  intro i hi
  simp only [List.length_map, List.length_range] at hi
  rw [List.get_map, List.get_map]
  simp only [List.get_range]
  exact hf i (by omega)

theorem rangeMap_mem (n : Nat) (f : Nat → Cell) (w : Cell)
    (hw : w ∈ (List.range (n + 1)).map f) : ∃ k, k ≤ n ∧ w = f k := by
  rcases List.mem_map.mp hw with ⟨k, hk, he⟩
  have := List.mem_range.mp hk
  exact ⟨k, by omega, he.symm⟩

/-- The straight horizontal segment of cells from `(sx, y0)` to `(gx, y0)`. -/
def segH (y0 sx gx : Nat) : List Cell :=
  if sx ≤ gx then
    (List.range (gx - sx + 1)).map (fun k : Nat => ⟨(sx : Int) + k, (y0 : Int)⟩)
  else
    (List.range (sx - gx + 1)).map (fun k : Nat => ⟨(sx : Int) - k, (y0 : Int)⟩)

/-- The straight vertical segment of cells from `(x0, sy)` to `(x0, gy)`. -/
def segV (x0 sy gy : Nat) : List Cell :=
  if sy ≤ gy then
    (List.range (gy - sy + 1)).map (fun k : Nat => ⟨(x0 : Int), (sy : Int) + k⟩)
  else
    (List.range (sy - gy + 1)).map (fun k : Nat => ⟨(x0 : Int), (sy : Int) - k⟩)

theorem segH_isPath (W H y0 sx gx : Nat) (hy0 : y0 < H) (hsx : sx < W)
    (hgx : gx < W) :
    IsPathTo (corridorMapH W H y0) ⟨sx, y0⟩ (segH y0 sx gx) ⟨gx, y0⟩ := by
  unfold segH
  by_cases hle : sx ≤ gx
  · rw [if_pos hle]
    refine ⟨?_, ?_, ?_, ?_⟩
    · rw [rangeMap_head?]
      simp
    · rw [rangeMap_getLast?]
      simp only [Option.some.injEq, Cell.mk.injEq]
      constructor
      · push_cast
        omega
      · trivial
    · apply rangeMap_chain'
      intro k _hk
      simp only [adjacentCell]
      have : ((sx : Int) + (k + 1) - ((sx : Int) + k)) = 1 := by push_cast; ring
      rw [show (((sx : Int) + ↑(k + 1)) - ((sx : Int) + ↑k)) = 1 by push_cast; ring]
      simp
    · intro c hc
      have hcmem : c ∈ (List.range (gx - sx + 1)).map
          (fun k : Nat => (⟨(sx : Int) + k, (y0 : Int)⟩ : Cell)) :=
        List.tail_subset _ hc
      obtain ⟨k, hk, he⟩ := rangeMap_mem _ _ _ hcmem
      rw [he]
      rw [corridorH_walkable W H y0 hy0]
      refine ⟨by positivity, ?_, rfl⟩
      push_cast
      omega
  · rw [if_neg hle]
    refine ⟨?_, ?_, ?_, ?_⟩
    · rw [rangeMap_head?]
      simp
    · rw [rangeMap_getLast?]
      simp only [Option.some.injEq, Cell.mk.injEq]
      constructor
      · push_cast
        omega
      · trivial
    · apply rangeMap_chain'
      intro k _hk
      simp only [adjacentCell]
      rw [show (((sx : Int) - ↑(k + 1)) - ((sx : Int) - ↑k)) = -1 by push_cast; ring]
      simp
    · intro c hc
      have hcmem : c ∈ (List.range (sx - gx + 1)).map
          (fun k : Nat => (⟨(sx : Int) - k, (y0 : Int)⟩ : Cell)) :=
        List.tail_subset _ hc
      obtain ⟨k, hk, he⟩ := rangeMap_mem _ _ _ hcmem
      rw [he]
      rw [corridorH_walkable W H y0 hy0]
      refine ⟨?_, ?_, rfl⟩
      · push_cast
        omega
      · push_cast
        omega

theorem segV_isPath (W H x0 sy gy : Nat) (hx0 : x0 < W) (hsy : sy < H)
    (hgy : gy < H) :
    IsPathTo (corridorMapV W H x0) ⟨x0, sy⟩ (segV x0 sy gy) ⟨x0, gy⟩ := by
  have hH : 0 < H := by omega
  unfold segV
  by_cases hle : sy ≤ gy
  · rw [if_pos hle]
    refine ⟨?_, ?_, ?_, ?_⟩
    · rw [rangeMap_head?]
      simp
    · rw [rangeMap_getLast?]
      simp only [Option.some.injEq, Cell.mk.injEq]
      constructor
      · trivial
      · push_cast
        omega
    · apply rangeMap_chain'
      intro k _hk
      simp only [adjacentCell]
      rw [show (((sy : Int) + ↑(k + 1)) - ((sy : Int) + ↑k)) = 1 by push_cast; ring]
      simp
    · intro c hc
      have hcmem : c ∈ (List.range (gy - sy + 1)).map
          (fun k : Nat => (⟨(x0 : Int), (sy : Int) + k⟩ : Cell)) :=
        List.tail_subset _ hc
      obtain ⟨k, hk, he⟩ := rangeMap_mem _ _ _ hcmem
      rw [he]
      rw [corridorV_walkable W H x0 hx0 hH]
      refine ⟨by positivity, ?_, rfl⟩
      push_cast
      omega
  · rw [if_neg hle]
    refine ⟨?_, ?_, ?_, ?_⟩
    · rw [rangeMap_head?]
      simp
    · rw [rangeMap_getLast?]
      simp only [Option.some.injEq, Cell.mk.injEq]
      constructor
      · trivial
      · push_cast
        omega
    · apply rangeMap_chain'
      intro k _hk
      simp only [adjacentCell]
      rw [show (((sy : Int) - ↑(k + 1)) - ((sy : Int) - ↑k)) = -1 by push_cast; ring]
      simp
    · intro c hc
      have hcmem : c ∈ (List.range (sy - gy + 1)).map
          (fun k : Nat => (⟨(x0 : Int), (sy : Int) - k⟩ : Cell)) :=
        List.tail_subset _ hc
      obtain ⟨k, hk, he⟩ := rangeMap_mem _ _ _ hcmem
      rw [he]
      rw [corridorV_walkable W H x0 hx0 hH]
      refine ⟨?_, ?_, rfl⟩
      · push_cast
        omega
      · push_cast
        omega

/-! ## C2 infrastructure: a simple path in a corridor has exactly the
Manhattan length -/

/-- Strengthen a chain implication with a membership invariant. -/
theorem chain'_imp_mem {P : Cell → Prop} {R S : Cell → Cell → Prop}
    (himp : ∀ a b, R a b → P a → P b → S a b) :
    ∀ l : List Cell, List.Chain' R l → (∀ c ∈ l, P c) → List.Chain' S l
  | [], _, _ => List.chain'_nil
  | [a], _, _ => List.chain'_singleton a
  | a :: b :: t, hch, hP => by
      rw [List.chain'_cons] at hch ⊢
      exact ⟨himp a b hch.1 (hP a (by simp)) (hP b (by simp)),
        chain'_imp_mem himp (b :: t) hch.2
          (fun c hc => hP c (List.mem_cons_of_mem a hc))⟩

theorem corridorH_chain_length (W H y0 sx gx : Nat) (hy0 : y0 < H)
    (ch : List Cell) (hh : ch.head? = some ⟨sx, y0⟩)
    (hl : ch.getLast? = some ⟨gx, y0⟩) (hc : List.Chain' adjacentCell ch)
    (hw : ∀ c ∈ ch.tail, isWalkable c (corridorMapH W H y0) = true)
    (hnd : ch.Nodup) :
    ch.length = ((gx : Int) - (sx : Int)).natAbs + 1 := by
  have hally : ∀ c ∈ ch, c.y = (y0 : Int) := by
    intro c hcmem
    cases hcase : ch with
    | nil => rw [hcase] at hcmem; simp at hcmem
    | cons c0 t =>
        rw [hcase] at hcmem hh
        rcases List.mem_cons.mp hcmem with h | h
        · have : c0 = (⟨sx, y0⟩ : Cell) := Option.some.inj (by simpa using hh)
          rw [h, this]
        · have hwc := hw c (by rw [hcase]; simpa using h)
          exact ((corridorH_walkable W H y0 hy0 c).mp hwc).2.2
  have hchx : List.Chain' (fun a b => b = a + 1 ∨ b = a - 1)
      (ch.map (fun c => c.x)) := by
    rw [List.chain'_map]
    refine chain'_imp_mem ?_ ch hc hally
    intro a b hab ha hb
    unfold adjacentCell at hab
    rw [ha, hb] at hab
    simp only [sub_self, Int.natAbs_zero, Nat.add_zero] at hab
    omega
  have hndx : (ch.map (fun c => c.x)).Nodup := by
    refine List.Nodup.map_on ?_ hnd
    intro c1 h1 c2 h2 he
    have hy1 := hally c1 h1
    have hy2 := hally c2 h2
    cases c1
    cases c2
    simp_all
  have hhx : (ch.map (fun c => c.x)).head? = some (sx : Int) := by
    rw [List.head?_map, hh]
    rfl
  have hlx : (ch.map (fun c => c.x)).getLast? = some (gx : Int) := by
    rw [List.getLast?_map, hl]
    rfl
  have := walk_length (ch.map (fun c => c.x)) hchx hndx _ _ hhx hlx
  simpa using this

theorem corridorV_chain_length (W H x0 sy gy : Nat) (hx0 : x0 < W) (hH : 0 < H)
    (ch : List Cell) (hh : ch.head? = some ⟨x0, sy⟩)
    (hl : ch.getLast? = some ⟨x0, gy⟩) (hc : List.Chain' adjacentCell ch)
    (hw : ∀ c ∈ ch.tail, isWalkable c (corridorMapV W H x0) = true)
    (hnd : ch.Nodup) :
    ch.length = ((gy : Int) - (sy : Int)).natAbs + 1 := by
  have hallx : ∀ c ∈ ch, c.x = (x0 : Int) := by
    intro c hcmem
    cases hcase : ch with
    | nil => rw [hcase] at hcmem; simp at hcmem
    | cons c0 t =>
        rw [hcase] at hcmem hh
        rcases List.mem_cons.mp hcmem with h | h
        · have : c0 = (⟨x0, sy⟩ : Cell) := Option.some.inj (by simpa using hh)
          rw [h, this]
        · have hwc := hw c (by rw [hcase]; simpa using h)
          exact ((corridorV_walkable W H x0 hx0 hH c).mp hwc).2.2
  have hchy : List.Chain' (fun a b => b = a + 1 ∨ b = a - 1)
      (ch.map (fun c => c.y)) := by
    rw [List.chain'_map]
    refine chain'_imp_mem ?_ ch hc hallx
    intro a b hab ha hb
    unfold adjacentCell at hab
    rw [ha, hb] at hab
    simp only [sub_self, Int.natAbs_zero, Nat.zero_add] at hab
    omega
  have hndy : (ch.map (fun c => c.y)).Nodup := by
    refine List.Nodup.map_on ?_ hnd
    intro c1 h1 c2 h2 he
    have hx1 := hallx c1 h1
    have hx2 := hallx c2 h2
    cases c1
    cases c2
    simp_all
  have hhy : (ch.map (fun c => c.y)).head? = some (sy : Int) := by
    rw [List.head?_map, hh]
    rfl
  have hly : (ch.map (fun c => c.y)).getLast? = some (gy : Int) := by
    rw [List.getLast?_map, hl]
    rfl
  have := walk_length (ch.map (fun c => c.y)) hchy hndy _ _ hhy hly
  simpa using this

/-! ## C2: corridor path lengths and unreachable goals -/

/-- C2.  On an obstacle-free straight corridor (horizontal or vertical),
`findPath` succeeds and returns exactly Manhattan-distance many waypoints
(the start cell having been dropped); and whenever the goal cell is
unreachable from the start cell, `findPath` returns none. -/
theorem findPath_corridor_length_and_unreachable :
    (∀ W H y0 sx gx : Nat, y0 < H → sx < W → gx < W →
      ∃ p, findPath ⟨32 * sx, 32 * y0⟩ ⟨32 * gx, 32 * y0⟩
          (corridorMapH W H y0) 32 = some p ∧
        p.length = ((gx : Int) - (sx : Int)).natAbs) ∧
    (∀ W H x0 sy gy : Nat, x0 < W → sy < H → gy < H →
      ∃ p, findPath ⟨32 * x0, 32 * sy⟩ ⟨32 * x0, 32 * gy⟩
          (corridorMapV W H x0) 32 = some p ∧
        p.length = ((gy : Int) - (sy : Int)).natAbs) ∧
    (∀ (start goal : WorldPos) (m : GameMap),
      ¬ReachableCell m (cellOf start 32) (cellOf goal 32) →
      findPath start goal m 32 = none) := by
  have hcell : ∀ a b : Nat, cellOf ⟨32 * a, 32 * b⟩ 32 = (⟨a, b⟩ : Cell) := by
    intro a b
    unfold cellOf
    simp only []
    congr 1
    · exact Int.mul_fdiv_cancel_left _ (by norm_num)
    · exact Int.mul_fdiv_cancel_left _ (by norm_num)
  refine ⟨?_, ?_, ?_⟩
  · intro W H y0 sx gx hy0 hsx hgx
    have hsw : isWalkable ⟨sx, y0⟩ (corridorMapH W H y0) = true :=
      (corridorH_walkable W H y0 hy0 _).mpr
        ⟨by positivity, by show (sx : Int) < (W : Int); exact_mod_cast hsx, rfl⟩
    have hgw : isWalkable ⟨gx, y0⟩ (corridorMapH W H y0) = true :=
      (corridorH_walkable W H y0 hy0 _).mpr
        ⟨by positivity, by show (gx : Int) < (W : Int); exact_mod_cast hgx, rfl⟩
    obtain ⟨p, hp⟩ := findPath_complete ⟨32 * sx, 32 * y0⟩ ⟨32 * gx, 32 * y0⟩
      (corridorMapH W H y0) 32
      (by rw [hcell sx y0]; exact isWalkable_valid _ _ hsw)
      (by rw [hcell gx y0]; exact isWalkable_valid _ _ hgw)
      (by
        rw [hcell sx y0, hcell gx y0]
        exact ⟨segH y0 sx gx, segH_isPath W H y0 sx gx hy0 hsx hgx⟩)
    obtain ⟨ch, h1, h2, h3, h4, h5, hpr⟩ :=
      findPath_sound ⟨32 * sx, 32 * y0⟩ ⟨32 * gx, 32 * y0⟩
        (corridorMapH W H y0) 32 p hp
    rw [hcell sx y0] at h1
    rw [hcell gx y0] at h2
    have hlen := corridorH_chain_length W H y0 sx gx hy0 ch h1 h2 h3 h4 h5
    refine ⟨p, hp, ?_⟩
    rw [hpr]
    unfold reconstructPath
    rw [List.length_drop, List.length_map, hlen]
    omega
  · intro W H x0 sy gy hx0 hsy hgy
    have hH : 0 < H := by omega
    have hsw : isWalkable ⟨x0, sy⟩ (corridorMapV W H x0) = true :=
      (corridorV_walkable W H x0 hx0 hH _).mpr
        ⟨by positivity, by show (sy : Int) < (H : Int); exact_mod_cast hsy, rfl⟩
    have hgw : isWalkable ⟨x0, gy⟩ (corridorMapV W H x0) = true :=
      (corridorV_walkable W H x0 hx0 hH _).mpr
        ⟨by positivity, by show (gy : Int) < (H : Int); exact_mod_cast hgy, rfl⟩
    obtain ⟨p, hp⟩ := findPath_complete ⟨32 * x0, 32 * sy⟩ ⟨32 * x0, 32 * gy⟩
      (corridorMapV W H x0) 32
      (by rw [hcell x0 sy]; exact isWalkable_valid _ _ hsw)
      (by rw [hcell x0 gy]; exact isWalkable_valid _ _ hgw)
      (by
        rw [hcell x0 sy, hcell x0 gy]
        exact ⟨segV x0 sy gy, segV_isPath W H x0 sy gy hx0 hsy hgy⟩)
    obtain ⟨ch, h1, h2, h3, h4, h5, hpr⟩ :=
      findPath_sound ⟨32 * x0, 32 * sy⟩ ⟨32 * x0, 32 * gy⟩
        (corridorMapV W H x0) 32 p hp
    rw [hcell x0 sy] at h1
    rw [hcell x0 gy] at h2
    have hlen := corridorV_chain_length W H x0 sy gy hx0 hH ch h1 h2 h3 h4 h5
    refine ⟨p, hp, ?_⟩
    rw [hpr]
    unfold reconstructPath
    rw [List.length_drop, List.length_map, hlen]
    omega
  · intro start goal m hnr
    exact findPath_none_of_unreachable start goal m 32 hnr

/-- Witness for C2 at a concrete 3×1 corridor and a concrete unreachable
pair. -/
theorem findPath_corridor_witness :
    (∃ p, findPath ⟨32 * ((0 : Nat) : Int), 32 * ((0 : Nat) : Int)⟩
        ⟨32 * ((2 : Nat) : Int), 32 * ((0 : Nat) : Int)⟩
        (corridorMapH 3 1 0) 32 = some p ∧
      p.length = (((2 : Nat) : Int) - ((0 : Nat) : Int)).natAbs) ∧
    findPath ⟨0, 0⟩ ⟨32, 0⟩ ([[0, 3]] : GameMap) 32 = none := by
  constructor
  · exact findPath_corridor_length_and_unreachable.1 3 1 0 0 2
      (by omega) (by omega) (by omega)
  · apply findPath_corridor_length_and_unreachable.2.2
    rintro ⟨ρ, hh, hl, hc, hw⟩
    have h2le : 2 ≤ ρ.length := by
      cases ρ with
      | nil => simp at hh
      | cons a t =>
          cases t with
          | nil =>
              exfalso
              have ha := Option.some.inj (by simpa using hh)
              have hb := Option.some.inj (by simpa using hl)
              have : cellOf ⟨0, 0⟩ 32 = cellOf ⟨32, 0⟩ 32 := by
                rw [← ha, ← hb]
              exact absurd this (by decide)
          | cons b t' => simp [List.length_cons]
    have hmem := getLast?_mem_tail ρ _ hl h2le
    have := hw _ hmem
    exact absurd this (by decide)

end TankBattle
